import Mathlib

/-!
Verification of the non-consecutive Sudoku SAT pipeline
(PJWVDH/Knowledge-Representation).

Embedded source files:
  - src/solver.py          : solve_cnf + dpll (recursive DPLL with unit
    propagation) and the inline model-to-grid decoding.
  - src/solving/encoder.py : to_cnf (puzzle grid to CNF).
  - src/CODE/encoder.py    : near-duplicate to_cnf.
  - src/solving/solver.py  : stub solve_cnf.

Conventions of the embedding:
  - Python sets of literals are modelled as duplicate-free lists; the
    set(cl) conversion in solve_cnf is List.dedup.  The only place the
    iteration order of a set is observed is next(iter(cl)) on a
    singleton set, which is the unique element (List.headI).
  - The Python unit_queue (append at the end, pop from the end, i.e. a
    stack) is modelled as a list whose head is the next element popped;
    Python's initial queue-building list displays therefore appear
    reversed here, and newly discovered units are pushed in reverse
    discovery order, exactly matching Python's pop order.
  - assignment is a total function Nat -> Int (Python: a list of length
    num_vars+1, entries -1/0/1); reading an index above num_vars raises
    IndexError in Python, modelled by the crash result.
  - Recursion receives explicit fuel; the out result marks fuel
    exhaustion and is proved unreachable for the fuel solve_cnf passes,
    which is how termination of the Python recursion is captured.
-/

abbrev Clause := List Int

/-- Sign of a literal as Python computes it: 1 if lit > 0 else -1. -/
def litSign (l : Int) : Int := if l > 0 then 1 else -1

/-- The assignment m makes literal l true. -/
def litTrue (m : Nat → Int) (l : Int) : Prop := m l.natAbs = litSign l

instance (m : Nat → Int) (l : Int) : Decidable (litTrue m l) := by
  unfold litTrue; infer_instance

/-- The assignment m satisfies clause cl: some literal of cl is true. -/
def satisfies (m : Nat → Int) (cl : Clause) : Prop := ∃ l ∈ cl, litTrue m l

instance (m : Nat → Int) (cl : Clause) : Decidable (satisfies m cl) := by
  unfold satisfies; infer_instance

/-- m is a total plus-or-minus-one assignment on variables 1..nv. -/
def totalOn (m : Nat → Int) (nv : Nat) : Prop :=
  ∀ i, 1 ≤ i → i ≤ nv → m i = 1 ∨ m i = -1

/-- Well-formed CNF instance: every literal is nonzero and its variable
is within the declared variable count. -/
def wfInstance (clauses : List Clause) (nv : Nat) : Prop :=
  ∀ cl ∈ clauses, ∀ l ∈ cl, l ≠ 0 ∧ l.natAbs ≤ nv

instance (clauses : List Clause) (nv : Nat) : Decidable (wfInstance clauses nv) := by
  unfold wfInstance; infer_instance

/-- Functional update of an assignment (Python: assignment[v] = x on a copy). -/
def updateA (σ : Nat → Int) (v : Nat) (x : Int) : Nat → Int :=
  fun i => if i = v then x else σ i

/-- Number of unassigned entries of the assignment array (indices 0..nv). -/
def ucount (nv : Nat) (σ : Nat → Int) : Nat :=
  (List.range (nv + 1)).countP (fun i => decide (σ i = 0))

/-- σ takes only the values -1, 0, 1 (the Python assignment array invariant). -/
def RangeOk (σ : Nat → Int) : Prop := ∀ i, σ i = 0 ∨ σ i = 1 ∨ σ i = -1

/-- m agrees with σ on every variable σ assigns. -/
def ExtendsA (m σ : Nat → Int) : Prop := ∀ i, σ i ≠ 0 → m i = σ i

/--
One pass over the clause list after committing literal lit, from
src/solver.py (both the unit-propagation body, lines 57-69, and the
branching body, lines 87-97, which is the same loop without unit
collection):
  clauses containing lit are dropped, -lit is removed from the clauses
  containing it, an emptied clause aborts with a conflict (none), and
  clauses shrunk to a single literal report that literal as a new unit.
Returns (new_clauses, new units in discovery order).
-/
def simplifyStep (lit : Int) : List Clause → Option (List Clause × List Int)
  | [] => some ([], [])
  | cl :: rest =>
    if lit ∈ cl then simplifyStep lit rest
    else if -lit ∈ cl then
      match cl.filter (fun x => decide (x ≠ -lit)) with
      | [] => none
      | u :: tl =>
        match simplifyStep lit rest with
        | none => none
        | some (cs, us) =>
          some ((u :: tl) :: cs, (if tl = [] then [u] else []) ++ us)
    else
      match simplifyStep lit rest with
      | none => none
      | some (cs, us) => some (cl :: cs, us)

/-- Result of the unit-propagation loop of dpll (src/solver.py lines 47-69). -/
inductive PropResult where
  | conflict : PropResult
  | ok (clauses : List Clause) (σ : Nat → Int) : PropResult
  | crash : PropResult
  | out : PropResult

/--
The unit-propagation while-loop of dpll (src/solver.py lines 47-69).
Pops a literal from the queue; a variable index above num_vars would
make Python's assignment[var] read raise IndexError (crash); a variable
already fixed to the opposite value is a conflict; one already fixed to
the same value is skipped; otherwise the variable is fixed and the
clause list is simplified, enqueueing new units.
-/
def propagate (nv : Nat) : Nat → List Clause → (Nat → Int) → List Int → PropResult
  | 0, _, _, _ => .out
  | _ + 1, clauses, σ, [] => .ok clauses σ
  | fuel + 1, clauses, σ, lit :: rest =>
    let v := lit.natAbs
    let val : Int := if lit > 0 then 1 else -1
    if v > nv then .crash
    else if σ v = -val then .conflict
    else if σ v = val then propagate nv fuel clauses σ rest
    else
      match simplifyStep lit clauses with
      | none => .conflict
      | some (cs, us) => propagate nv fuel cs (updateA σ v val) (us.reverse ++ rest)

/-- Result of dpll (src/solver.py lines 35-108). -/
inductive DpllResult where
  | sat (model : Nat → Int) : DpllResult
  | unsat : DpllResult
  | crash : DpllResult
  | out : DpllResult

/-- Model extraction at a successful leaf (src/solver.py lines 71-76):
every still-unassigned variable in 1..num_vars is set to -1. -/
def fill (nv : Nat) (σ : Nat → Int) : Nat → Int :=
  fun i => if 1 ≤ i ∧ i ≤ nv ∧ σ i = 0 then -1 else σ i

/-- Python max(unassigned_vars, key=score): first element of maximal
combined literal frequency (strictly-greater replacement keeps the
first maximum, hence the smallest variable id among ties). -/
def chooseVar (counts : Int → Nat) (u : Nat) (us : List Nat) : Nat :=
  us.foldl
    (fun best v =>
      if counts (Int.ofNat v) + counts (-(Int.ofNat v)) >
          counts (Int.ofNat best) + counts (-(Int.ofNat best)) then v else best)
    u

/--
The recursive dpll search of src/solver.py lines 35-108: unit
propagation, then the two termination checks (no clauses left: SAT with
unassigned variables defaulted to -1; clauses left but no unassigned
variable: branch failure), then branching on the highest-frequency
unassigned variable, value true first, then false.
-/
def dpll (counts : Int → Nat) (nv : Nat) :
    Nat → List Clause → (Nat → Int) → DpllResult
  | 0, _, _ => .out
  | fuel + 1, clauses, σ =>
    let q0 := ((clauses.filter (fun cl => cl.length = 1)).map List.headI).reverse
    let pf := q0.length + ucount nv σ * (clauses.length + 1) + 1
    match propagate nv pf clauses σ q0 with
    | .out => .out
    | .crash => .crash
    | .conflict => .unsat
    | .ok cs σ1 =>
      if cs.isEmpty then .sat (fill nv σ1)
      else
        match (List.range' 1 nv).filter (fun i => decide (σ1 i = 0)) with
        | [] => .unsat
        | u :: us =>
          let v := chooseVar counts u us
          let fb :=
            match simplifyStep (-(Int.ofNat v)) cs with
            | none => DpllResult.unsat
            | some p => dpll counts nv fuel p.1 (updateA σ1 v (-1))
          match simplifyStep (Int.ofNat v) cs with
          | none => fb
          | some p =>
            match dpll counts nv fuel p.1 (updateA σ1 v 1) with
            | .sat m => .sat m
            | .unsat => fb
            | .crash => .crash
            | .out => .out

/-- Literal frequency table (src/solver.py line 9): number of clauses
(as literal sets) containing the literal. -/
def initCounts (clauses : List Clause) : Int → Nat :=
  fun l => (clauses.map (fun cl => if l ∈ cl then 1 else 0)).sum

/-- The dpll call made by solve_cnf (src/solver.py line 13): set-converted
clauses, all-unassigned assignment array, literal counts, and enough
fuel for the recursion (its depth is bounded by the number of variables). -/
def runDpll (clauses : List Clause) (nv : Nat) : DpllResult :=
  dpll (initCounts (clauses.map List.dedup)) nv (nv + 2)
    (clauses.map List.dedup) (fun _ => 0)

/--
Model-to-grid decoding inlined in solve_cnf (src/solver.py lines 18-28):
a hardcoded 9 by 9 grid; for every variable index assigned 1,
row = (i-1) div 81, col = ((i-1) mod 81) div 9, digit = ((i-1) mod 9) + 1.
A row index of 9 or more makes Python's grid[row] assignment raise
IndexError, modelled by none.
-/
def decodeGrid (m : Nat → Int) (nv : Nat) : Option (List (List Int)) :=
  (List.range' 1 nv).foldl
    (fun og vi =>
      og.bind fun g =>
        if m vi = 1 then
          let v := vi - 1
          let row := v / 81
          let col := (v % 81) / 9
          let digit : Int := (v % 9) + 1
          if row < 9 then some (g.set row ((g.getD row []).set col digit)) else none
        else some g)
    (some (List.replicate 9 (List.replicate 9 (0 : Int))))

/--
solve_cnf of src/solver.py lines 7-31: convert clauses to sets, compute
literal counts, run dpll, and on SAT decode the model into the
hardcoded 9 by 9 grid.  none models an uncaught Python exception
(IndexError in dpll or in the decoding loop).
-/
def solve_cnf (clauses : List Clause) (nv : Nat) :
    Option (String × Option (List (List Int))) :=
  match runDpll clauses nv with
  | .sat m =>
    match decodeGrid m nv with
    | some grid => some ("SAT", some grid)
    | none => none
  | .unsat => some ("UNSAT", none)
  | .crash => none
  | .out => none

/-- The variable numbering both encoders define (encoder.py, var):
var(r,c,v) = r*N*N + c*N + v. -/
def varN (N r c v : Nat) : Nat := r * N * N + c * N + v

/-- The inverse triple the spec's decode contract prescribes for a
variable id i and grid size N:
r = (i-1) div N², c = ((i-1) mod N²) div N, v = ((i-1) mod N) + 1. -/
def specInverse (N i : Nat) : Nat × Nat × Nat :=
  ((i - 1) / (N * N), ((i - 1) % (N * N)) / N, (i - 1) % N + 1)

/-- Python int(N**0.5), the integer square root of the grid size, as
both encoders compute the box dimension.  Defined by counting the
values b in 0..n with b*b ≤ n (their number is floor(sqrt n) + 1), so
that kernel evaluation works. -/
def isqrt (n : Nat) : Nat :=
  (List.range (n + 1)).countP (fun b => decide (b * b ≤ n)) - 1

/-- The pairwise at-most-one pattern both encoders use for the box
family: for every index pair i1 < i2 into the collected variable list,
one binary negative clause. -/
def pairsNegIdx (xs : List Nat) : List (List Int) :=
  (List.range xs.length).flatMap fun i1 =>
    (List.range' (i1 + 1) (xs.length - (i1 + 1))).map fun i2 =>
      [-(xs.getD i1 0 : Int), -(xs.getD i2 0 : Int)]

namespace solving

/-- (1) Exactly one value per cell (src/solving/encoder.py lines 48-55). -/
def cellClauses (N : Nat) : List (List Int) :=
  (List.range N).flatMap fun r =>
    (List.range N).flatMap fun c =>
      ((List.range' 1 N).map fun v => (varN N r c v : Int)) ::
      ((List.range' 1 N).flatMap fun v1 =>
        (List.range' (v1 + 1) (N - v1)).map fun v2 =>
          [-(varN N r c v1 : Int), -(varN N r c v2 : Int)])

/-- (2) Exactly one column per value in each row (lines 58-65). -/
def rowClauses (N : Nat) : List (List Int) :=
  (List.range N).flatMap fun r =>
    (List.range' 1 N).flatMap fun v =>
      ((List.range N).map fun c => (varN N r c v : Int)) ::
      ((List.range N).flatMap fun c1 =>
        (List.range' (c1 + 1) (N - (c1 + 1))).map fun c2 =>
          [-(varN N r c1 v : Int), -(varN N r c2 v : Int)])

/-- (3) Exactly one row per value in each column (lines 68-75). -/
def colClauses (N : Nat) : List (List Int) :=
  (List.range N).flatMap fun c =>
    (List.range' 1 N).flatMap fun v =>
      ((List.range N).map fun r => (varN N r c v : Int)) ::
      ((List.range N).flatMap fun r1 =>
        (List.range' (r1 + 1) (N - (r1 + 1))).map fun r2 =>
          [-(varN N r1 c v : Int), -(varN N r2 c v : Int)])

/-- The cells of one box for one value, in iteration order (lines 81-86). -/
def boxCells (N B rb cb v : Nat) : List Nat :=
  (List.range B).flatMap fun i =>
    (List.range B).map fun j => varN N (rb + i) (cb + j) v

/-- Python range(0, N, B): the box start offsets.  Python raises
ValueError when B = 0 (only possible for N = 0); that case is given the
empty list here and excluded by the theorems (they assume 1 ≤ N). -/
def boxStarts (N B : Nat) : List Nat :=
  (List.range (if B = 0 then 0 else (N + B - 1) / B)).map (· * B)

/-- (4) Exactly one of each value per box (lines 78-92). -/
def boxClauses (N B : Nat) : List (List Int) :=
  (boxStarts N B).flatMap fun rb =>
    (boxStarts N B).flatMap fun cb =>
      (List.range' 1 N).flatMap fun v =>
        ((boxCells N B rb cb v).map fun x => (x : Int)) ::
        pairsNegIdx (boxCells N B rb cb v)

/-- (5) The adjacency clauses one cell and one value contribute
(lines 95-110): right neighbor first, then down neighbor, forbidding
value v+1 (when v < N) and value v-1 (when v > 1) at the neighbor. -/
def adjBlock (N r c v : Nat) : List (List Int) :=
  (if c + 1 < N then
      (if v < N then [[-(varN N r c v : Int), -(varN N r (c + 1) (v + 1) : Int)]] else []) ++
      (if 1 < v then [[-(varN N r c v : Int), -(varN N r (c + 1) (v - 1) : Int)]] else [])
    else []) ++
  (if r + 1 < N then
      (if v < N then [[-(varN N r c v : Int), -(varN N (r + 1) c (v + 1) : Int)]] else []) ++
      (if 1 < v then [[-(varN N r c v : Int), -(varN N (r + 1) c (v - 1) : Int)]] else [])
    else [])

/-- (5) Non-consecutive adjacency family (lines 95-110). -/
def adjClauses (N : Nat) : List (List Int) :=
  (List.range N).flatMap fun r =>
    (List.range N).flatMap fun c =>
      (List.range' 1 N).flatMap fun v => adjBlock N r c v

/-- (6) Clue unit clauses (lines 114-119). -/
def clueClauses (N : Nat) (text : List (List Nat)) : List (List Int) :=
  (List.range N).flatMap fun r =>
    (List.range N).flatMap fun c =>
      if (text.getD r []).getD c 0 > 0 then
        [[(varN N r c ((text.getD r []).getD c 0) : Int)]]
      else []

/--
The six clause families of src/solving/encoder.py lines 26-121 in
source order, and num_vars = N³ with N the number of grid rows: the
clause list the function builds when every cell read of the clue loop
succeeds (every row has at least N entries).  The parsed puzzle file is
given as a list of rows of nonnegative integers; to_cnfE below is the
function's actual return behavior including the IndexError path of the
clue loop.
-/
def to_cnf (text : List (List Nat)) : List (List Int) × Nat :=
  let N := text.length
  let B := isqrt N
  (cellClauses N ++ rowClauses N ++ colClauses N ++ boxClauses N B ++
    adjClauses N ++ clueClauses N text, N * N * N)

end solving

namespace CODE

/-- (1) Cell family of src/CODE/encoder.py lines 47-55: the at-least-one
clause hardcodes range(1,10), i.e. values 1..9, regardless of N; the
pairwise at-most-one part uses the real N. -/
def cellClauses (N : Nat) : List (List Int) :=
  (List.range N).flatMap fun r =>
    (List.range N).flatMap fun c =>
      ((List.range' 1 9).map fun v => (varN N r c v : Int)) ::
      ((List.range' 1 N).flatMap fun v1 =>
        (List.range' (v1 + 1) (N - v1)).map fun v2 =>
          [-(varN N r c v1 : Int), -(varN N r c v2 : Int)])

/-- (2) Row family (src/CODE/encoder.py lines 57-66), same code as the
solving encoder. -/
def rowClauses (N : Nat) : List (List Int) :=
  (List.range N).flatMap fun r =>
    (List.range' 1 N).flatMap fun v =>
      ((List.range N).map fun c => (varN N r c v : Int)) ::
      ((List.range N).flatMap fun c1 =>
        (List.range' (c1 + 1) (N - (c1 + 1))).map fun c2 =>
          [-(varN N r c1 v : Int), -(varN N r c2 v : Int)])

/-- (3) Column family (lines 68-77), same code as the solving encoder. -/
def colClauses (N : Nat) : List (List Int) :=
  (List.range N).flatMap fun c =>
    (List.range' 1 N).flatMap fun v =>
      ((List.range N).map fun r => (varN N r c v : Int)) ::
      ((List.range N).flatMap fun r1 =>
        (List.range' (r1 + 1) (N - (r1 + 1))).map fun r2 =>
          [-(varN N r1 c v : Int), -(varN N r2 c v : Int)])

/-- Box cell collection (lines 89-96): r = i+row_offset, c = j+col_offset. -/
def boxCells (N B rb cb v : Nat) : List Nat :=
  (List.range B).flatMap fun i =>
    (List.range B).map fun j => varN N (i + rb) (j + cb) v

/-- (4) Box family (lines 82-104). -/
def boxClauses (N B : Nat) : List (List Int) :=
  (solving.boxStarts N B).flatMap fun rb =>
    (solving.boxStarts N B).flatMap fun cb =>
      (List.range' 1 N).flatMap fun v =>
        ((boxCells N B rb cb v).map fun x => (x : Int)) ::
        pairsNegIdx (boxCells N B rb cb v)

/-- (5) Adjacency contribution of one cell and value (lines 111-128):
the vertical neighbor (i+1, j) is enumerated first, then the horizontal
neighbor (i, j+1); the guards are written v+1 ≤ N and 1 ≤ v-1 as in the
source. -/
def adjBlock (N i j v : Nat) : List (List Int) :=
  (if i + 1 < N then
      (if v + 1 ≤ N then [[-(varN N i j v : Int), -(varN N (i + 1) j (v + 1) : Int)]] else []) ++
      (if 1 ≤ v - 1 then [[-(varN N i j v : Int), -(varN N (i + 1) j (v - 1) : Int)]] else [])
    else []) ++
  (if j + 1 < N then
      (if v + 1 ≤ N then [[-(varN N i j v : Int), -(varN N i (j + 1) (v + 1) : Int)]] else []) ++
      (if 1 ≤ v - 1 then [[-(varN N i j v : Int), -(varN N i (j + 1) (v - 1) : Int)]] else [])
    else [])

/-- (5) Non-consecutive adjacency family (lines 111-128). -/
def adjClauses (N : Nat) : List (List Int) :=
  (List.range N).flatMap fun i =>
    (List.range N).flatMap fun j =>
      (List.range' 1 N).flatMap fun v => adjBlock N i j v

/-- (6) Clue unit clauses (lines 130-135), same code as the solving
encoder. -/
def clueClauses (N : Nat) (text : List (List Nat)) : List (List Int) :=
  (List.range N).flatMap fun i =>
    (List.range N).flatMap fun j =>
      if (text.getD i []).getD j 0 > 0 then
        [[(varN N i j ((text.getD i []).getD j 0) : Int)]]
      else []

/-- The clause families of src/CODE/encoder.py lines 26-136 in source
order (boxdim = int(N**0.5) is computed just before the box family
there; the clause list is identical): the list the function builds when
every cell read of the clue loop succeeds.  to_cnfE below is the
function's actual return behavior including the IndexError path. -/
def to_cnf (text : List (List Nat)) : List (List Int) × Nat :=
  let N := text.length
  let B := isqrt N
  (cellClauses N ++ rowClauses N ++ colClauses N ++ boxClauses N B ++
    adjClauses N ++ clueClauses N text, N * N * N)

end CODE

namespace solving

/-- Python dict assignment on an insertion-ordered association list:
overwrite the entry in place when the key exists, append it otherwise. -/
def setKey (tv : List (Nat × Option Bool)) (k : Nat) (b : Option Bool) :
    List (Nat × Option Bool) :=
  if tv.any (fun p => p.1 = k) then
    tv.map (fun p => if p.1 = k then (k, b) else p)
  else tv ++ [(k, b)]

/--
solve_cnf of src/solving/solver.py lines 11-40: builds a dictionary
mapping every variable 1..num_vars to None, overwrites the entry for
each unit clause with the polarity of its literal (dict assignment also
inserts keys outside 1..num_vars), prints it, and returns None.  The
returned pair is (final dictionary as an insertion-ordered association
list, returned value); the second component models the Python return
value, which is always None - never a ("SAT", model) or ("UNSAT", None)
pair.
-/
def solve_cnf (clauses : List (List Int)) (num_vars : Nat) :
    List (Nat × Option Bool) × Option (String × Option (List Int)) :=
  let init := (List.range' 1 num_vars).map (fun i => (i, (none : Option Bool)))
  let tv := clauses.foldl
    (fun tv clause =>
      if clause.length = 1 then
        if clause.headI < 0 then setKey tv clause.headI.natAbs (some false)
        else setKey tv clause.headI.natAbs (some true)
      else tv)
    init
  (tv, none)

end solving

/-- The decode loop as the spec's decoder contract prescribes it,
parameterized by the actual N: for each variable id assigned 1, write
digit v at cell (r,c) recovered by specInverse. -/
def decodeGridSpec (N : Nat) (m : Nat → Int) (nv : Nat) : Option (List (List Int)) :=
  (List.range' 1 nv).foldl
    (fun og vi =>
      og.bind fun g =>
        if m vi = 1 then
          if (specInverse N vi).1 < N then
            some (g.set (specInverse N vi).1
              ((g.getD (specInverse N vi).1 []).set (specInverse N vi).2.1
                ((specInverse N vi).2.2 : Int)))
          else none
        else some g)
    (some (List.replicate N (List.replicate N (0 : Int))))

theorem litSign_neg {l : Int} (h : l ≠ 0) : litSign (-l) = -litSign l := by
  unfold litSign
  by_cases h1 : l > 0
  · rw [if_pos h1, if_neg (by omega)]
  · rw [if_neg h1, if_pos (by omega)]
    norm_num

theorem litTrue_not_both {m : Nat → Int} {l : Int} (h : l ≠ 0)
    (h1 : litTrue m l) (h2 : litTrue m (-l)) : False := by
  unfold litTrue at h1 h2
  rw [Int.natAbs_neg, litSign_neg h, h1] at h2
  unfold litSign at h2
  split at h2 <;> omega

/-- If the committed literal is true under m and m satisfies the
simplified clause list, then m satisfies the original clause list. -/
theorem simplifyStep_sound {lit : Int} :
    ∀ {clauses cs us}, simplifyStep lit clauses = some (cs, us) →
    ∀ m, litTrue m lit → (∀ cl ∈ cs, satisfies m cl) → ∀ cl ∈ clauses, satisfies m cl := by
  intro clauses
  induction clauses with
  | nil => simp
  | cons cl rest ih =>
    intro cs us h m hm hall c hc
    rw [simplifyStep] at h
    rcases List.mem_cons.1 hc with rfl | hc
    · -- the clause at the head of the list
      by_cases h1 : lit ∈ c
      · exact ⟨lit, h1, hm⟩
      · rw [if_neg h1] at h
        by_cases h2 : -lit ∈ c
        · rw [if_pos h2] at h
          cases hf : c.filter (fun x => decide (x ≠ -lit)) with
          | nil => rw [hf] at h; exact absurd h (by simp)
          | cons u tl =>
            rw [hf] at h
            cases hs : simplifyStep lit rest with
            | none => rw [hs] at h; exact absurd h (by simp)
            | some p =>
              rw [hs] at h
              obtain ⟨cs', us'⟩ := p
              simp only [Option.some.injEq, Prod.mk.injEq] at h
              obtain ⟨hcs, _⟩ := h
              have hmem : (u :: tl) ∈ cs := by rw [← hcs]; exact List.mem_cons_self _ _
              obtain ⟨l, hl, hlt⟩ := hall _ hmem
              refine ⟨l, ?_, hlt⟩
              have := List.mem_filter.1 (hf ▸ hl)
              exact this.1
        · rw [if_neg h2] at h
          cases hs : simplifyStep lit rest with
          | none => rw [hs] at h; exact absurd h (by simp)
          | some p =>
            rw [hs] at h
            obtain ⟨cs', us'⟩ := p
            simp only [Option.some.injEq, Prod.mk.injEq] at h
            obtain ⟨hcs, _⟩ := h
            exact hall c (by rw [← hcs]; exact List.mem_cons_self _ _)
    · -- a clause further down the list: recurse
      by_cases h1 : lit ∈ cl
      · rw [if_pos h1] at h
        exact ih h m hm hall c hc
      · rw [if_neg h1] at h
        by_cases h2 : -lit ∈ cl
        · rw [if_pos h2] at h
          cases hf : cl.filter (fun x => decide (x ≠ -lit)) with
          | nil => rw [hf] at h; exact absurd h (by simp)
          | cons u tl =>
            rw [hf] at h
            cases hs : simplifyStep lit rest with
            | none => rw [hs] at h; exact absurd h (by simp)
            | some p =>
              rw [hs] at h
              obtain ⟨cs', us'⟩ := p
              simp only [Option.some.injEq, Prod.mk.injEq] at h
              obtain ⟨hcs, _⟩ := h
              refine ih hs m hm ?_ c hc
              intro c' hc'
              exact hall c' (by rw [← hcs]; exact List.mem_cons_of_mem _ hc')
        · rw [if_neg h2] at h
          cases hs : simplifyStep lit rest with
          | none => rw [hs] at h; exact absurd h (by simp)
          | some p =>
            rw [hs] at h
            obtain ⟨cs', us'⟩ := p
            simp only [Option.some.injEq, Prod.mk.injEq] at h
            obtain ⟨hcs, _⟩ := h
            refine ih hs m hm ?_ c hc
            intro c' hc'
            exact hall c' (by rw [← hcs]; exact List.mem_cons_of_mem _ hc')

/-- Structural facts about a successful simplification step: literals of
the new clauses come from the old ones and avoid the committed literal
and its negation, reported units appear as singleton clauses, lengths do
not grow, and satisfaction transfers from the old clauses to the new
ones for any assignment making the committed literal true. -/
theorem simplifyStep_spec {lit : Int} :
    ∀ {clauses cs us}, simplifyStep lit clauses = some (cs, us) →
    (∀ cl ∈ cs, ∀ l ∈ cl, (∃ cl0 ∈ clauses, l ∈ cl0) ∧ l ≠ -lit ∧ l ≠ lit) ∧
    (∀ u ∈ us, [u] ∈ cs) ∧
    cs.length ≤ clauses.length ∧ us.length ≤ clauses.length ∧
    (∀ m, lit ≠ 0 → litTrue m lit → (∀ cl ∈ clauses, satisfies m cl) →
      ∀ cl ∈ cs, satisfies m cl) := by
  intro clauses
  induction clauses with
  | nil =>
    intro cs us h
    simp only [simplifyStep, Option.some.injEq, Prod.mk.injEq] at h
    obtain ⟨rfl, rfl⟩ := h
    simp
  | cons cl rest ih =>
    intro cs us h
    rw [simplifyStep] at h
    by_cases h1 : lit ∈ cl
    · rw [if_pos h1] at h
      obtain ⟨hlits, hus, hlen, hulen, htr⟩ := ih h
      refine ⟨?_, hus, Nat.le_succ_of_le hlen, Nat.le_succ_of_le hulen, ?_⟩
      · intro c hc l hl
        obtain ⟨⟨cl0, hcl0, hl0⟩, hne⟩ := hlits c hc l hl
        exact ⟨⟨cl0, List.mem_cons_of_mem _ hcl0, hl0⟩, hne⟩
      · intro m hz hm hall
        exact htr m hz hm (fun c hc => hall c (List.mem_cons_of_mem _ hc))
    · rw [if_neg h1] at h
      by_cases h2 : -lit ∈ cl
      · rw [if_pos h2] at h
        cases hf : cl.filter (fun x => decide (x ≠ -lit)) with
        | nil => rw [hf] at h; exact absurd h (by simp)
        | cons u tl =>
          rw [hf] at h
          cases hs : simplifyStep lit rest with
          | none => rw [hs] at h; exact absurd h (by simp)
          | some p =>
            rw [hs] at h
            obtain ⟨cs', us'⟩ := p
            simp only [Option.some.injEq, Prod.mk.injEq] at h
            obtain ⟨hcs, hus'⟩ := h
            obtain ⟨hlits, hus, hlen, hulen, htr⟩ := ih hs
            have hsubcl : ∀ l ∈ (u :: tl), l ∈ cl ∧ l ≠ -lit := by
              intro l hl
              have := List.mem_filter.1 (hf ▸ hl)
              exact ⟨this.1, by simpa using this.2⟩
            subst hcs hus'
            refine ⟨?_, ?_, ?_, ?_, ?_⟩
            · intro c hc l hl
              rcases List.mem_cons.1 hc with rfl | hc
              · obtain ⟨hin, hne⟩ := hsubcl l hl
                refine ⟨⟨cl, List.mem_cons_self _ _, hin⟩, hne, ?_⟩
                rintro rfl; exact h1 hin
              · obtain ⟨⟨cl0, hcl0, hl0⟩, hne⟩ := hlits c hc l hl
                exact ⟨⟨cl0, List.mem_cons_of_mem _ hcl0, hl0⟩, hne⟩
            · intro w hw
              rcases List.mem_append.1 hw with hw | hw
              · have : tl = [] := by
                  by_contra hne
                  rw [if_neg hne] at hw
                  simp at hw
                rw [if_pos this] at hw
                simp only [List.mem_singleton] at hw
                subst hw this
                exact List.mem_cons_self _ _
              · exact List.mem_cons_of_mem _ (hus w hw)
            · simpa using Nat.succ_le_succ hlen
            · calc ((if tl = [] then [u] else []) ++ us').length
                  ≤ 1 + us'.length := by split <;> simp <;> omega
                _ ≤ rest.length + 1 := by omega
                _ = (cl :: rest).length := by simp
            · intro m hz hm hall c hc
              rcases List.mem_cons.1 hc with rfl | hc
              · obtain ⟨l, hl, hlt⟩ := hall cl (List.mem_cons_self _ _)
                have hlne : l ≠ -lit := by
                  rintro rfl
                  exact litTrue_not_both hz hm hlt
                refine ⟨l, ?_, hlt⟩
                rw [← hf]
                exact List.mem_filter.2 ⟨hl, by simpa using hlne⟩
              · exact htr m hz hm (fun c' hc' => hall c' (List.mem_cons_of_mem _ hc')) c hc
      · rw [if_neg h2] at h
        cases hs : simplifyStep lit rest with
        | none => rw [hs] at h; exact absurd h (by simp)
        | some p =>
          rw [hs] at h
          obtain ⟨cs', us'⟩ := p
          simp only [Option.some.injEq, Prod.mk.injEq] at h
          obtain ⟨hcs, hus'⟩ := h
          obtain ⟨hlits, hus, hlen, hulen, htr⟩ := ih hs
          subst hcs hus'
          refine ⟨?_, ?_, by simpa using Nat.succ_le_succ hlen, Nat.le_succ_of_le hulen, ?_⟩
          · intro c hc l hl
            rcases List.mem_cons.1 hc with rfl | hc
            · refine ⟨⟨c, List.mem_cons_self _ _, hl⟩, ?_, ?_⟩
              · rintro rfl; exact h2 hl
              · rintro rfl; exact h1 hl
            · obtain ⟨⟨cl0, hcl0, hl0⟩, hne⟩ := hlits c hc l hl
              exact ⟨⟨cl0, List.mem_cons_of_mem _ hcl0, hl0⟩, hne⟩
          · intro w hw
            exact List.mem_cons_of_mem _ (hus w hw)
          · intro m hz hm hall c hc
            rcases List.mem_cons.1 hc with rfl | hc
            · exact hall c (List.mem_cons_self _ _)
            · exact htr m hz hm (fun c' hc' => hall c' (List.mem_cons_of_mem _ hc')) c hc

/-- A conflict in the simplification step (an emptied clause) means no
assignment making the committed literal true satisfies the old clauses. -/
theorem simplifyStep_none {lit : Int} (hz : lit ≠ 0) :
    ∀ {clauses}, simplifyStep lit clauses = none →
    ∀ m, litTrue m lit → ¬ (∀ cl ∈ clauses, satisfies m cl) := by
  intro clauses
  induction clauses with
  | nil => simp [simplifyStep]
  | cons cl rest ih =>
    intro h m hm hall
    rw [simplifyStep] at h
    by_cases h1 : lit ∈ cl
    · rw [if_pos h1] at h
      exact ih h m hm (fun c hc => hall c (List.mem_cons_of_mem _ hc))
    · rw [if_neg h1] at h
      by_cases h2 : -lit ∈ cl
      · rw [if_pos h2] at h
        cases hf : cl.filter (fun x => decide (x ≠ -lit)) with
        | nil =>
          obtain ⟨l, hl, hlt⟩ := hall cl (List.mem_cons_self _ _)
          have : l = -lit := by
            have := List.filter_eq_nil_iff.1 hf l hl
            simpa using this
          subst this
          exact litTrue_not_both hz hm hlt
        | cons u tl =>
          rw [hf] at h
          cases hs : simplifyStep lit rest with
          | none => exact ih hs m hm (fun c hc => hall c (List.mem_cons_of_mem _ hc))
          | some p => rw [hs] at h; obtain ⟨a, b⟩ := p; simp at h
      · rw [if_neg h2] at h
        cases hs : simplifyStep lit rest with
        | none => exact ih hs m hm (fun c hc => hall c (List.mem_cons_of_mem _ hc))
        | some p => rw [hs] at h; obtain ⟨a, b⟩ := p; simp at h

theorem updateA_self (σ : Nat → Int) (v : Nat) (x : Int) : updateA σ v x v = x := by
  simp [updateA]

theorem updateA_ne (σ : Nat → Int) (x : Int) {i v : Nat} (h : i ≠ v) :
    updateA σ v x i = σ i := by
  simp [updateA, h]

theorem RangeOk_updateA {σ : Nat → Int} {x : Int} (h : RangeOk σ) (v : Nat)
    (hx : x = 1 ∨ x = -1) : RangeOk (updateA σ v x) := by
  intro i
  by_cases hiv : i = v
  · subst hiv; rw [updateA_self]; rcases hx with rfl | rfl <;> simp
  · rw [updateA_ne _ _ hiv]; exact h i

theorem ExtendsA_of_updateA {m σ : Nat → Int} {v : Nat} {x : Int}
    (h : ExtendsA m (updateA σ v x)) (hσ : σ v = 0) : ExtendsA m σ := by
  intro i hi
  have hiv : i ≠ v := by rintro rfl; exact hi hσ
  have := h i (by rw [updateA_ne _ _ hiv]; exact hi)
  rwa [updateA_ne _ _ hiv] at this

theorem ExtendsA_updateA {m σ : Nat → Int} {v : Nat} {x : Int}
    (h : ExtendsA m σ) (hm : m v = x) : ExtendsA m (updateA σ v x) := by
  intro i hi
  by_cases hiv : i = v
  · subst hiv; rw [updateA_self]; exact hm
  · rw [updateA_ne _ _ hiv] at hi ⊢; exact h i hi

theorem ucount_mono {nv : Nat} {σ σ' : Nat → Int}
    (h : ∀ i, σ' i = 0 → σ i = 0) : ucount nv σ' ≤ ucount nv σ := by
  unfold ucount
  exact List.countP_mono_left (fun i _ hp => by
    simp only [decide_eq_true_eq] at hp ⊢; exact h i hp)

theorem countP_updateA {σ : Nat → Int} {v : Nat} {x : Int}
    (h0 : σ v = 0) (hx : x ≠ 0) :
    ∀ (l : List Nat), l.Nodup → v ∈ l →
      l.countP (fun i => decide (updateA σ v x i = 0)) + 1 ≤
        l.countP (fun i => decide (σ i = 0)) := by
  intro l
  induction l with
  | nil => simp
  | cons a t ih =>
    intro hnd hv
    have hndt := (List.nodup_cons.1 hnd).2
    have hat := (List.nodup_cons.1 hnd).1
    rw [List.countP_cons, List.countP_cons]
    rcases List.mem_cons.1 hv with heq | hvt
    · have ha : a = v := heq.symm
      have h1 : decide (updateA σ v x a = 0) = false := by
        rw [ha]; simp [updateA_self, hx]
      have h2 : decide (σ a = 0) = true := by rw [ha]; simp [h0]
      have hteq : t.countP (fun i => decide (updateA σ v x i = 0)) =
          t.countP (fun i => decide (σ i = 0)) := by
        refine List.countP_congr (fun i hi => ?_)
        have hne : i ≠ v := by rintro rfl; rw [ha] at hat; exact hat hi
        simp [updateA_ne _ _ hne]
      rw [h1, h2, hteq]
      simp
    · have hav : a ≠ v := fun h => hat (h ▸ hvt)
      have hcong : decide (updateA σ v x a = 0) = decide (σ a = 0) := by
        rw [updateA_ne _ _ hav]
      rw [hcong]
      have := ih hndt hvt
      split <;> omega

theorem ucount_updateA_lt {nv : Nat} {σ : Nat → Int} {v : Nat} {x : Int}
    (hv : v ≤ nv) (h0 : σ v = 0) (hx : x ≠ 0) :
    ucount nv (updateA σ v x) + 1 ≤ ucount nv σ :=
  countP_updateA h0 hx _ (List.nodup_range _) (List.mem_range.2 (by omega))

theorem ucount_le (nv : Nat) (σ : Nat → Int) : ucount nv σ ≤ nv + 1 := by
  unfold ucount
  calc (List.range (nv+1)).countP _ ≤ (List.range (nv+1)).length := List.countP_le_length _
    _ = nv + 1 := List.length_range _

/--
Soundness-side invariants of the unit-propagation loop: on a normal
finish (ok), the final assignment only extends the initial one and keeps
the -1/0/1 range, every literal of a final clause stems from an initial
clause and is unassigned in the final assignment whenever all initial
literals were unassigned initially, and satisfaction of the final
clauses by an assignment extending the final one carries back to the
initial clauses.
-/
theorem propagate_ok {nv : Nat} :
    ∀ {fuel clauses σ q cs σ'}, propagate nv fuel clauses σ q = .ok cs σ' →
    RangeOk σ →
    (∀ i, σ i ≠ 0 → σ' i = σ i) ∧
    RangeOk σ' ∧
    (∀ m, ExtendsA m σ' → (∀ cl ∈ cs, satisfies m cl) → ∀ cl ∈ clauses, satisfies m cl) ∧
    (∀ cl ∈ cs, ∀ l ∈ cl, ∃ cl0 ∈ clauses, l ∈ cl0) ∧
    ((∀ cl ∈ clauses, ∀ l ∈ cl, σ l.natAbs = 0) →
      ∀ cl ∈ cs, ∀ l ∈ cl, σ' l.natAbs = 0) := by
  intro fuel
  induction fuel with
  | zero => intro clauses σ q cs σ' h; exact absurd h (by simp [propagate])
  | succ fuel ih =>
    intro clauses σ q cs σ' h hR
    cases q with
    | nil =>
      rw [propagate] at h
      cases h
      exact ⟨fun _ _ => rfl, hR, fun m _ hs => hs, fun cl hcl l hl => ⟨cl, hcl, hl⟩,
        fun hW => hW⟩
    | cons lit rest =>
      rw [propagate] at h
      by_cases hv : lit.natAbs > nv
      · rw [if_pos hv] at h; exact absurd h (by simp)
      · rw [if_neg hv] at h
        set val : Int := if lit > 0 then 1 else -1 with hval
        by_cases hneg : σ lit.natAbs = -val
        · rw [if_pos hneg] at h; exact absurd h (by simp)
        · rw [if_neg hneg] at h
          by_cases hpos : σ lit.natAbs = val
          · rw [if_pos hpos] at h
            exact ih h hR
          · rw [if_neg hpos] at h
            cases hs : simplifyStep lit clauses with
            | none => rw [hs] at h; exact absurd h (by simp)
            | some p =>
              rw [hs] at h
              obtain ⟨cs1, us⟩ := p
              have hval1 : val = 1 ∨ val = -1 := by rw [hval]; split <;> simp
              have hσ0 : σ lit.natAbs = 0 := by
                rcases hR lit.natAbs with h0 | h0 | h0
                · exact h0
                · rcases hval1 with hv1 | hv1 <;> rw [hv1] at hneg hpos <;> omega
                · rcases hval1 with hv1 | hv1 <;> rw [hv1] at hneg hpos <;> omega
              have hvalne : val ≠ 0 := by rcases hval1 with hv1 | hv1 <;> rw [hv1] <;> simp
              obtain ⟨hsl, hsu, _, _, hstr⟩ := simplifyStep_spec hs
              obtain ⟨hagree, hR', htrans, hprov, hW⟩ :=
                ih h (RangeOk_updateA hR _ hval1)
              refine ⟨?_, hR', ?_, ?_, ?_⟩
              · intro i hi
                have hiv : i ≠ lit.natAbs := by rintro rfl; exact hi hσ0
                rw [hagree i (by rw [updateA_ne _ _ hiv]; exact hi)]
                exact updateA_ne _ _ hiv
              · intro m hm hall
                have hm1 : ExtendsA m (updateA σ lit.natAbs val) := by
                  intro i hi
                  have h' : σ' i ≠ 0 := by rw [hagree i hi]; exact hi
                  rw [← hagree i hi]
                  exact hm i h'
                have hmlit : litTrue m lit := by
                  unfold litTrue
                  rw [hm1 lit.natAbs (by rw [updateA_self]; exact hvalne), updateA_self,
                    hval]
                  rfl
                have hcs1 : ∀ cl ∈ cs1, satisfies m cl := htrans m hm hall
                exact simplifyStep_sound hs m hmlit hcs1
              · intro cl hcl l hl
                obtain ⟨cl1, hcl1, hl1⟩ := hprov cl hcl l hl
                exact (hsl cl1 hcl1 l hl1).1
              · intro hW0
                refine hW ?_
                intro cl hcl l hl
                obtain ⟨⟨cl0, hcl0, hl0⟩, hne1, hne2⟩ := hsl cl hcl l hl
                have hna : l.natAbs ≠ lit.natAbs := by
                  intro he
                  rcases Int.natAbs_eq_natAbs_iff.1 he with he | he
                  · exact hne2 he
                  · exact hne1 he
                rw [updateA_ne _ _ hna]
                exact hW0 cl0 hcl0 l hl0

/--
Completeness-side invariants of the unit-propagation loop, under the
queue invariant (every queued literal is a consequence of the clause
set for assignments extending the current one): a conflict means no
assignment extending the current one satisfies the clauses, and a
normal finish preserves satisfaction forward.
-/
theorem propagate_complete {nv : Nat} :
    ∀ {fuel : Nat} {clauses : List Clause} {σ : Nat → Int} {q : List Int},
    RangeOk σ →
    (∀ u ∈ q, u ≠ 0) →
    (∀ cl ∈ clauses, ∀ l ∈ cl, l ≠ 0) →
    (∀ m, ExtendsA m σ → (∀ cl ∈ clauses, satisfies m cl) → ∀ u ∈ q, litTrue m u) →
    (propagate nv fuel clauses σ q = .conflict →
       ∀ m, ExtendsA m σ → ¬ (∀ cl ∈ clauses, satisfies m cl)) ∧
    (∀ {cs σ'}, propagate nv fuel clauses σ q = .ok cs σ' →
       ∀ m, ExtendsA m σ → (∀ cl ∈ clauses, satisfies m cl) →
         ExtendsA m σ' ∧ ∀ cl ∈ cs, satisfies m cl) := by
  intro fuel
  induction fuel with
  | zero =>
    intro clauses σ q _ _ _ _
    constructor
    · intro h; exact absurd h (by simp [propagate])
    · intro cs σ' h; exact absurd h (by simp [propagate])
  | succ fuel ih =>
    intro clauses σ q hR hQnz hCnz hQI
    cases q with
    | nil =>
      constructor
      · intro h; rw [propagate] at h; exact absurd h (by simp)
      · intro cs σ' h m hm hall
        rw [propagate] at h
        cases h
        exact ⟨hm, hall⟩
    | cons lit rest =>
      have hlitnz : lit ≠ 0 := hQnz lit (List.mem_cons_self _ _)
      rw [propagate]
      by_cases hv : lit.natAbs > nv
      · rw [if_pos hv]
        constructor
        · intro h; exact absurd h (by simp)
        · intro cs σ' h; exact absurd h (by simp)
      · rw [if_neg hv]
        set val : Int := if lit > 0 then 1 else -1 with hval
        have hval1 : val = 1 ∨ val = -1 := by rw [hval]; split <;> simp
        have hvalsign : val = litSign lit := by rw [hval]; rfl
        by_cases hneg : σ lit.natAbs = -val
        · rw [if_pos hneg]
          constructor
          · intro _ m hm hall
            have hlt : litTrue m lit := hQI m hm hall lit (List.mem_cons_self _ _)
            have h1 : m lit.natAbs = σ lit.natAbs :=
              hm lit.natAbs (by rw [hneg]; rcases hval1 with h | h <;> rw [h] <;> simp)
            unfold litTrue at hlt
            rw [hlt, ← hvalsign] at h1
            rw [hneg] at h1
            rcases hval1 with h | h <;> rw [h] at h1 <;> omega
          · intro cs σ' h; exact absurd h (by simp)
        · rw [if_neg hneg]
          by_cases hpos : σ lit.natAbs = val
          · rw [if_pos hpos]
            refine ih hR (fun u hu => hQnz u (List.mem_cons_of_mem _ hu)) hCnz ?_
            intro m hm hall u hu
            exact hQI m hm hall u (List.mem_cons_of_mem _ hu)
          · rw [if_neg hpos]
            have hσ0 : σ lit.natAbs = 0 := by
              rcases hR lit.natAbs with h0 | h0 | h0
              · exact h0
              · rcases hval1 with hv1 | hv1 <;> rw [hv1] at hneg hpos <;> omega
              · rcases hval1 with hv1 | hv1 <;> rw [hv1] at hneg hpos <;> omega
            have hvalne : val ≠ 0 := by rcases hval1 with hv1 | hv1 <;> rw [hv1] <;> simp
            cases hs : simplifyStep lit clauses with
            | none =>
              constructor
              · intro _ m hm hall
                have hlt : litTrue m lit := hQI m hm hall lit (List.mem_cons_self _ _)
                exact simplifyStep_none hlitnz hs m hlt hall
              · intro cs σ' h; exact absurd h (by simp)
            | some p =>
              obtain ⟨cs1, us⟩ := p
              obtain ⟨hsl, hsu, _, _, hstr⟩ := simplifyStep_spec hs
              -- facts used to set up the recursive invariant
              have hstep : ∀ m, ExtendsA m σ → (∀ cl ∈ clauses, satisfies m cl) →
                  ExtendsA m (updateA σ lit.natAbs val) ∧
                  (∀ cl ∈ cs1, satisfies m cl) := by
                intro m hm hall
                have hlt : litTrue m lit := hQI m hm hall lit (List.mem_cons_self _ _)
                have hmv : m lit.natAbs = val := by rw [hvalsign]; exact hlt
                exact ⟨ExtendsA_updateA hm hmv, hstr m hlitnz hlt hall⟩
              have hR' : RangeOk (updateA σ lit.natAbs val) :=
                RangeOk_updateA hR _ hval1
              have hQnz' : ∀ u ∈ us.reverse ++ rest, u ≠ 0 := by
                intro u hu
                rcases List.mem_append.1 hu with hu | hu
                · rw [List.mem_reverse] at hu
                  have h1 := hsu u hu
                  obtain ⟨⟨cl0, hcl0, hl0⟩, _⟩ := hsl _ h1 u (List.mem_singleton_self _)
                  exact hCnz cl0 hcl0 u hl0
                · exact hQnz u (List.mem_cons_of_mem _ hu)
              have hCnz' : ∀ cl ∈ cs1, ∀ l ∈ cl, l ≠ 0 := by
                intro cl hcl l hl
                obtain ⟨⟨cl0, hcl0, hl0⟩, _⟩ := hsl cl hcl l hl
                exact hCnz cl0 hcl0 l hl0
              have hQI' : ∀ m, ExtendsA m (updateA σ lit.natAbs val) →
                  (∀ cl ∈ cs1, satisfies m cl) → ∀ u ∈ us.reverse ++ rest, litTrue m u := by
                intro m hm1 hcs1 u hu
                have hm : ExtendsA m σ := ExtendsA_of_updateA hm1 hσ0
                have hlt : litTrue m lit := by
                  unfold litTrue
                  rw [hm1 lit.natAbs (by rw [updateA_self]; exact hvalne), updateA_self,
                    ← hvalsign]
                have hall : ∀ cl ∈ clauses, satisfies m cl :=
                  simplifyStep_sound hs m hlt hcs1
                rcases List.mem_append.1 hu with hu | hu
                · rw [List.mem_reverse] at hu
                  obtain ⟨l, hl, hltl⟩ := hcs1 _ (hsu u hu)
                  rw [List.mem_singleton] at hl
                  subst hl
                  exact hltl
                · exact hQI m hm hall u (List.mem_cons_of_mem _ hu)
              obtain ⟨ihc, iho⟩ := ih hR' hQnz' hCnz' hQI'
              constructor
              · intro h m hm hall
                obtain ⟨hm1, hcs1⟩ := hstep m hm hall
                exact ihc h m hm1 hcs1
              · intro cs σ' h m hm hall
                obtain ⟨hm1, hcs1⟩ := hstep m hm hall
                exact iho h m hm1 hcs1

/-- The unit-propagation loop never raises the IndexError modelled by
crash when every clause literal and queued literal is within range. -/
theorem propagate_no_crash {nv : Nat} :
    ∀ {fuel clauses σ q},
    (∀ cl ∈ clauses, ∀ l ∈ cl, l.natAbs ≤ nv) →
    (∀ u ∈ q, u.natAbs ≤ nv) →
    propagate nv fuel clauses σ q ≠ .crash := by
  intro fuel
  induction fuel with
  | zero => intro clauses σ q _ _; simp [propagate]
  | succ fuel ih =>
    intro clauses σ q hC hQ
    cases q with
    | nil => rw [propagate]; simp
    | cons lit rest =>
      rw [propagate]
      have hv : ¬ lit.natAbs > nv := by
        have := hQ lit (List.mem_cons_self _ _); omega
      rw [if_neg hv]
      set val : Int := if lit > 0 then 1 else -1 with hval
      by_cases hneg : σ lit.natAbs = -val
      · rw [if_pos hneg]; simp
      · rw [if_neg hneg]
        by_cases hpos : σ lit.natAbs = val
        · rw [if_pos hpos]
          exact ih hC (fun u hu => hQ u (List.mem_cons_of_mem _ hu))
        · rw [if_neg hpos]
          cases hs : simplifyStep lit clauses with
          | none => simp
          | some p =>
            obtain ⟨cs1, us⟩ := p
            obtain ⟨hsl, hsu, _, _, _⟩ := simplifyStep_spec hs
            refine ih ?_ ?_
            · intro cl hcl l hl
              obtain ⟨⟨cl0, hcl0, hl0⟩, _⟩ := hsl cl hcl l hl
              exact hC cl0 hcl0 l hl0
            · intro u hu
              rcases List.mem_append.1 hu with hu | hu
              · rw [List.mem_reverse] at hu
                obtain ⟨⟨cl0, hcl0, hl0⟩, _⟩ :=
                  hsl _ (hsu u hu) u (List.mem_singleton_self _)
                exact hC cl0 hcl0 u hl0
              · exact hQ u (List.mem_cons_of_mem _ hu)

/-- Fuel bound for the unit-propagation loop: the loop finishes within
queue length plus unassigned count times (clause count + 1) steps. -/
theorem propagate_fuel {nv : Nat} :
    ∀ {fuel clauses σ q},
    RangeOk σ →
    q.length + ucount nv σ * (clauses.length + 1) < fuel →
    propagate nv fuel clauses σ q ≠ .out := by
  intro fuel
  induction fuel with
  | zero => intro clauses σ q _ h; omega
  | succ fuel ih =>
    intro clauses σ q hR hlt
    cases q with
    | nil => rw [propagate]; simp
    | cons lit rest =>
      rw [propagate]
      by_cases hv : lit.natAbs > nv
      · rw [if_pos hv]; simp
      · rw [if_neg hv]
        set val : Int := if lit > 0 then 1 else -1 with hval
        have hval1 : val = 1 ∨ val = -1 := by rw [hval]; split <;> simp
        by_cases hneg : σ lit.natAbs = -val
        · rw [if_pos hneg]; simp
        · rw [if_neg hneg]
          by_cases hpos : σ lit.natAbs = val
          · rw [if_pos hpos]
            refine ih hR ?_
            simp only [List.length_cons] at hlt
            omega
          · rw [if_neg hpos]
            have hσ0 : σ lit.natAbs = 0 := by
              rcases hR lit.natAbs with h0 | h0 | h0
              · exact h0
              · rcases hval1 with hv1 | hv1 <;> rw [hv1] at hneg hpos <;> omega
              · rcases hval1 with hv1 | hv1 <;> rw [hv1] at hneg hpos <;> omega
            have hvalne : val ≠ 0 := by
              rcases hval1 with hv1 | hv1 <;> rw [hv1] <;> simp
            cases hs : simplifyStep lit clauses with
            | none => simp
            | some p =>
              obtain ⟨cs1, us⟩ := p
              obtain ⟨_, _, hclen, hulen, _⟩ := simplifyStep_spec hs
              refine ih (RangeOk_updateA hR _ hval1) ?_
              have huc : ucount nv (updateA σ lit.natAbs val) + 1 ≤ ucount nv σ :=
                ucount_updateA_lt (by omega) hσ0 hvalne
              have h1 : (us.reverse ++ rest).length = us.length + rest.length := by
                simp
              have h2 : ucount nv (updateA σ lit.natAbs val) * (cs1.length + 1) ≤
                  ucount nv (updateA σ lit.natAbs val) * (clauses.length + 1) :=
                Nat.mul_le_mul_left _ (by omega)
              simp only [List.length_cons] at hlt
              have h6 : ucount nv (updateA σ lit.natAbs val) * (clauses.length + 1) +
                  (clauses.length + 1) ≤ ucount nv σ * (clauses.length + 1) := by
                calc ucount nv (updateA σ lit.natAbs val) * (clauses.length + 1) +
                      (clauses.length + 1)
                    = (ucount nv (updateA σ lit.natAbs val) + 1) * (clauses.length + 1) := by
                      ring
                  _ ≤ ucount nv σ * (clauses.length + 1) :=
                      Nat.mul_le_mul_right _ huc
              omega

theorem chooseVar_mem (counts : Int → Nat) :
    ∀ (us : List Nat) (u : Nat), chooseVar counts u us ∈ u :: us := by
  intro us
  induction us with
  | nil => intro u; simp [chooseVar]
  | cons b t ih =>
    intro u
    unfold chooseVar
    simp only [List.foldl_cons]
    split
    · have hb := ih b
      unfold chooseVar at hb
      exact List.mem_cons_of_mem _ hb
    · have hu := ih u
      unfold chooseVar at hu
      rcases List.mem_cons.1 hu with h | h
      · exact List.mem_cons.2 (Or.inl h)
      · exact List.mem_cons_of_mem _ (List.mem_cons_of_mem _ h)

theorem fill_extendsA (nv : Nat) (σ : Nat → Int) : ExtendsA (fill nv σ) σ := by
  intro i hi
  unfold fill
  rw [if_neg (by rintro ⟨_, _, h0⟩; exact hi h0)]

theorem fill_total {nv : Nat} {σ : Nat → Int} (hR : RangeOk σ) :
    totalOn (fill nv σ) nv := by
  intro i h1 h2
  unfold fill
  by_cases h0 : σ i = 0
  · rw [if_pos ⟨h1, h2, h0⟩]; right; rfl
  · rw [if_neg (by rintro ⟨_, _, h⟩; exact h0 h)]
    rcases hR i with h | h | h
    · exact absurd h h0
    · left; exact h
    · right; exact h

theorem length_one_eq {cl : Clause} (h : cl.length = 1) : cl = [cl.headI] := by
  cases cl with
  | nil => simp at h
  | cons a t =>
    cases t with
    | nil => rfl
    | cons b t2 => simp at h

/--
Soundness of the dpll search: a sat result yields a model that extends
the entry assignment, is total with values 1 or -1 on 1..num_vars, and
satisfies every clause of the entry clause list.
-/
theorem dpll_sound {counts : Int → Nat} {nv : Nat} :
    ∀ {fuel clauses σ m}, dpll counts nv fuel clauses σ = .sat m →
    RangeOk σ →
    ExtendsA m σ ∧ totalOn m nv ∧ ∀ cl ∈ clauses, satisfies m cl := by
  intro fuel
  induction fuel with
  | zero => intro clauses σ m h; exact absurd h (by simp [dpll])
  | succ fuel ih =>
    intro clauses σ m h hR
    rw [dpll] at h
    simp only [] at h
    cases hp : propagate nv
        ((((clauses.filter (fun cl => cl.length = 1)).map List.headI).reverse).length +
          ucount nv σ * (clauses.length + 1) + 1) clauses σ
        (((clauses.filter (fun cl => cl.length = 1)).map List.headI).reverse) with
    | out => rw [hp] at h; simp at h
    | crash => rw [hp] at h; simp at h
    | conflict => rw [hp] at h; simp at h
    | ok cs σ1 =>
      rw [hp] at h
      simp only [] at h
      obtain ⟨hagree, hR1, htrans, _, _⟩ := propagate_ok hp hR
      by_cases he : cs.isEmpty
      · rw [if_pos he] at h
        have hm : m = fill nv σ1 := by cases h; rfl
        have hcs : cs = [] := List.isEmpty_iff.1 he
        subst hm
        have hE1 : ExtendsA (fill nv σ1) σ1 := fill_extendsA nv σ1
        refine ⟨?_, fill_total hR1, ?_⟩
        · intro i hi
          rw [hE1 i (by rw [hagree i hi]; exact hi), hagree i hi]
        · refine htrans _ hE1 ?_
          rw [hcs]; simp
      · rw [if_neg he] at h
        cases hu : (List.range' 1 nv).filter (fun i => decide (σ1 i = 0)) with
        | nil => rw [hu] at h; simp at h
        | cons u us =>
          rw [hu] at h
          simp only [] at h
          set v := chooseVar counts u us with hv
          have hvmem : v ∈ u :: us := chooseVar_mem counts us u
          have hvfil : v ∈ (List.range' 1 nv).filter (fun i => decide (σ1 i = 0)) := by
            rw [hu]; exact hvmem
          have hσ1v : σ1 v = 0 := by
            have := (List.mem_filter.1 hvfil).2; simpa using this
          have hvrange : 1 ≤ v ∧ v < 1 + nv := by
            have := (List.mem_filter.1 hvfil).1
            exact List.mem_range'_1.1 this
          -- common reasoning for the two branch values
          have branch : ∀ (x : Int) (p : List Clause × List Int),
              (x = 1 ∨ x = -1) →
              simplifyStep (if x = 1 then Int.ofNat v else -Int.ofNat v) cs = some p →
              dpll counts nv fuel p.1 (updateA σ1 v x) = .sat m →
              ExtendsA m σ ∧ totalOn m nv ∧ ∀ cl ∈ clauses, satisfies m cl := by
            intro x p hx hps hrec
            have hRx : RangeOk (updateA σ1 v x) := RangeOk_updateA hR1 _ hx
            obtain ⟨hEx, htot, hpsat⟩ := ih hrec hRx
            have hxn0 : x ≠ 0 := by rcases hx with rfl | rfl <;> simp
            have hmv : m v = x := by
              have := hEx v (by rw [updateA_self]; exact hxn0)
              rwa [updateA_self] at this
            have hvpos : (0 : Int) < Int.ofNat v := by
              have h1 := hvrange.1
              exact Int.ofNat_pos.mpr (Nat.lt_of_lt_of_le Nat.zero_lt_one h1)
            have hlt : litTrue m (if x = 1 then Int.ofNat v else -Int.ofNat v) := by
              rcases hx with rfl | rfl
              · rw [if_pos rfl]
                unfold litTrue litSign
                rw [if_pos hvpos]
                simpa [Int.natAbs_ofNat] using hmv
              · rw [if_neg (by norm_num)]
                unfold litTrue litSign
                rw [if_neg (by omega)]
                simpa [Int.natAbs_neg, Int.natAbs_ofNat] using hmv
            have hE1 : ExtendsA m σ1 := ExtendsA_of_updateA hEx hσ1v
            have hcs : ∀ cl ∈ cs, satisfies m cl := simplifyStep_sound hps m hlt hpsat
            refine ⟨?_, htot, htrans m hE1 hcs⟩
            intro i hi
            rw [hE1 i (by rw [hagree i hi]; exact hi), hagree i hi]
          cases hps : simplifyStep (Int.ofNat v) cs with
          | none =>
            rw [hps] at h
            simp only [] at h
            -- only the false branch remains
            cases hps2 : simplifyStep (-Int.ofNat v) cs with
            | none => rw [hps2] at h; simp at h
            | some p2 =>
              rw [hps2] at h
              simp only [] at h
              exact branch (-1) p2 (Or.inr rfl) (by rw [if_neg (by norm_num)]; exact hps2) h
          | some p =>
            rw [hps] at h
            simp only [] at h
            cases hrec : dpll counts nv fuel p.1 (updateA σ1 v 1) with
            | sat m1 =>
              rw [hrec] at h
              simp only [] at h
              have hm : m1 = m := by cases h; rfl
              subst hm
              exact branch 1 p (Or.inl rfl) (by rw [if_pos rfl]; exact hps) hrec
            | unsat =>
              rw [hrec] at h
              simp only [] at h
              cases hps2 : simplifyStep (-Int.ofNat v) cs with
              | none => rw [hps2] at h; simp at h
              | some p2 =>
                rw [hps2] at h
                simp only [] at h
                exact branch (-1) p2 (Or.inr rfl) (by rw [if_neg (by norm_num)]; exact hps2) h
            | crash => rw [hrec] at h; simp at h
            | out => rw [hrec] at h; simp at h

/--
Completeness of the dpll search: an unsat result is only returned when
no total assignment extending the entry assignment satisfies the entry
clauses; in particular the branch-failure path taken when clauses
remain but no unassigned variable exists discards no satisfiable
branch.
-/
theorem dpll_complete {counts : Int → Nat} {nv : Nat} :
    ∀ {fuel clauses σ}, dpll counts nv fuel clauses σ = .unsat →
    RangeOk σ →
    (∀ cl ∈ clauses, ∀ l ∈ cl, l ≠ 0 ∧ l.natAbs ≤ nv) →
    (∀ cl ∈ clauses, ∀ l ∈ cl, σ l.natAbs = 0) →
    ∀ m, totalOn m nv → ExtendsA m σ → ¬ (∀ cl ∈ clauses, satisfies m cl) := by
  intro fuel
  induction fuel with
  | zero => intro clauses σ h; exact absurd h (by simp [dpll])
  | succ fuel ih =>
    intro clauses σ h hR hwf hW m htot hEσ hallm
    rw [dpll] at h
    simp only [] at h
    -- the initial unit queue and its properties
    have hq0 : ∀ u ∈ ((clauses.filter (fun cl => cl.length = 1)).map List.headI).reverse,
        [u] ∈ clauses := by
      intro u hu
      rw [List.mem_reverse] at hu
      obtain ⟨cl, hcl, hhd⟩ := List.mem_map.1 hu
      have hfle := List.mem_filter.1 hcl
      have hlen : cl.length = 1 := by simpa using hfle.2
      have := length_one_eq hlen
      rw [hhd] at this
      rw [← this]
      exact hfle.1
    have hQnz : ∀ u ∈ ((clauses.filter (fun cl => cl.length = 1)).map List.headI).reverse,
        u ≠ 0 := by
      intro u hu
      exact (hwf _ (hq0 u hu) u (List.mem_singleton_self _)).1
    have hCnz : ∀ cl ∈ clauses, ∀ l ∈ cl, l ≠ 0 := fun cl hcl l hl => (hwf cl hcl l hl).1
    have hQI : ∀ m', ExtendsA m' σ → (∀ cl ∈ clauses, satisfies m' cl) →
        ∀ u ∈ ((clauses.filter (fun cl => cl.length = 1)).map List.headI).reverse,
          litTrue m' u := by
      intro m' _ hall u hu
      obtain ⟨l, hl, hlt⟩ := hall _ (hq0 u hu)
      rw [List.mem_singleton] at hl
      subst hl
      exact hlt
    obtain ⟨hconf, hok⟩ := @propagate_complete nv
      (((clauses.filter (fun cl => cl.length = 1)).map List.headI).reverse.length +
        ucount nv σ * (clauses.length + 1) + 1)
      clauses σ (((clauses.filter (fun cl => cl.length = 1)).map List.headI).reverse)
      hR hQnz hCnz hQI
    cases hp : propagate nv
        ((((clauses.filter (fun cl => cl.length = 1)).map List.headI).reverse).length +
          ucount nv σ * (clauses.length + 1) + 1) clauses σ
        (((clauses.filter (fun cl => cl.length = 1)).map List.headI).reverse) with
    | out => rw [hp] at h; simp at h
    | crash => rw [hp] at h; simp at h
    | conflict => exact hconf hp m hEσ hallm
    | ok cs σ1 =>
      rw [hp] at h
      simp only [] at h
      obtain ⟨hagree, hR1, htrans, hprov, hWp⟩ := propagate_ok hp hR
      have hW1 : ∀ cl ∈ cs, ∀ l ∈ cl, σ1 l.natAbs = 0 := hWp hW
      have hwf1 : ∀ cl ∈ cs, ∀ l ∈ cl, l ≠ 0 ∧ l.natAbs ≤ nv := by
        intro cl hcl l hl
        obtain ⟨cl0, hcl0, hl0⟩ := hprov cl hcl l hl
        exact hwf cl0 hcl0 l hl0
      obtain ⟨hEσ1, hcsm⟩ := hok hp m hEσ hallm
      by_cases he : cs.isEmpty
      · rw [if_pos he] at h; simp at h
      · rw [if_neg he] at h
        cases hu : (List.range' 1 nv).filter (fun i => decide (σ1 i = 0)) with
        | nil =>
          -- clauses remain but no unassigned variable: they must be
          -- empty or mention an assigned variable, impossible
          have hne : cs ≠ [] := by
            intro hcs; rw [hcs] at he; simp at he
          obtain ⟨c0, hc0⟩ := List.exists_mem_of_ne_nil cs hne
          obtain ⟨l, hl, _⟩ := hcsm c0 hc0
          have h0 : σ1 l.natAbs = 0 := hW1 c0 hc0 l hl
          have hnz := (hwf1 c0 hc0 l hl).1
          have hle := (hwf1 c0 hc0 l hl).2
          have hmem : l.natAbs ∈ List.range' 1 nv := by
            rw [List.mem_range'_1]
            constructor
            · omega
            · omega
          have := List.filter_eq_nil_iff.1 hu l.natAbs hmem
          simp only [decide_eq_true_eq] at this
          exact this h0
        | cons u us =>
          rw [hu] at h
          simp only [] at h
          set v := chooseVar counts u us with hv
          have hvmem : v ∈ u :: us := chooseVar_mem counts us u
          have hvfil : v ∈ (List.range' 1 nv).filter (fun i => decide (σ1 i = 0)) := by
            rw [hu]; exact hvmem
          have hσ1v : σ1 v = 0 := by
            have := (List.mem_filter.1 hvfil).2; simpa using this
          have hvrange : 1 ≤ v ∧ v < 1 + nv := by
            have := (List.mem_filter.1 hvfil).1
            exact List.mem_range'_1.1 this
          have hvpos : (0 : Int) < Int.ofNat v :=
            Int.ofNat_pos.mpr (Nat.lt_of_lt_of_le Nat.zero_lt_one hvrange.1)
          -- both branch values fail in any path ending in unsat
          have hfacts : ((simplifyStep (Int.ofNat v) cs = none) ∨
              (∃ p : List Clause × List Int, simplifyStep (Int.ofNat v) cs = some p ∧
                dpll counts nv fuel p.1 (updateA σ1 v 1) = .unsat)) ∧
              ((simplifyStep (-Int.ofNat v) cs = none) ∨
              (∃ p : List Clause × List Int, simplifyStep (-Int.ofNat v) cs = some p ∧
                dpll counts nv fuel p.1 (updateA σ1 v (-1)) = .unsat)) := by
            cases hps : simplifyStep (Int.ofNat v) cs with
            | none =>
              rw [hps] at h; simp only [] at h
              refine ⟨Or.inl rfl, ?_⟩
              cases hps2 : simplifyStep (-Int.ofNat v) cs with
              | none => exact Or.inl rfl
              | some p2 =>
                rw [hps2] at h; simp only [] at h
                exact Or.inr ⟨p2, rfl, h⟩
            | some p =>
              rw [hps] at h; simp only [] at h
              cases hrec : dpll counts nv fuel p.1 (updateA σ1 v 1) with
              | sat m1 => rw [hrec] at h; simp at h
              | crash => rw [hrec] at h; simp at h
              | out => rw [hrec] at h; simp at h
              | unsat =>
                rw [hrec] at h; simp only [] at h
                refine ⟨Or.inr ⟨p, rfl, hrec⟩, ?_⟩
                cases hps2 : simplifyStep (-Int.ofNat v) cs with
                | none => exact Or.inl rfl
                | some p2 =>
                  rw [hps2] at h; simp only [] at h
                  exact Or.inr ⟨p2, rfl, h⟩
          -- under the model m, the branch matching m v leads to a contradiction
          have hkill : ∀ (x : Int), (x = 1 ∨ x = -1) → m v = x →
              ((simplifyStep (if x = 1 then Int.ofNat v else -Int.ofNat v) cs = none) ∨
               (∃ p : List Clause × List Int,
                 simplifyStep (if x = 1 then Int.ofNat v else -Int.ofNat v) cs = some p ∧
                 dpll counts nv fuel p.1 (updateA σ1 v x) = .unsat)) → False := by
            intro x hx hmv hcase
            have hxn0 : x ≠ 0 := by rcases hx with rfl | rfl <;> simp
            have hlitnz : (if x = 1 then Int.ofNat v else -Int.ofNat v) ≠ 0 := by
              rcases hx with rfl | rfl
              · rw [if_pos rfl]; omega
              · rw [if_neg (by norm_num)]; omega
            have hlt : litTrue m (if x = 1 then Int.ofNat v else -Int.ofNat v) := by
              rcases hx with rfl | rfl
              · rw [if_pos rfl]
                unfold litTrue litSign
                rw [if_pos hvpos]
                simpa [Int.natAbs_ofNat] using hmv
              · rw [if_neg (by norm_num)]
                unfold litTrue litSign
                rw [if_neg (by omega)]
                simpa [Int.natAbs_neg, Int.natAbs_ofNat] using hmv
            rcases hcase with hnone | ⟨p, hps, hrec⟩
            · exact simplifyStep_none hlitnz hnone m hlt hcsm
            · obtain ⟨hsl, _, _, _, hstr⟩ := simplifyStep_spec hps
              have hnab : (if x = 1 then Int.ofNat v else -Int.ofNat v).natAbs = v := by
                rcases hx with rfl | rfl
                · rw [if_pos rfl]; simp
                · rw [if_neg (by norm_num)]; simp
              have hpm : ∀ cl ∈ p.1, satisfies m cl := hstr m hlitnz hlt hcsm
              have hEx : ExtendsA m (updateA σ1 v x) := ExtendsA_updateA hEσ1 hmv
              have hwfp : ∀ cl ∈ p.1, ∀ l ∈ cl, l ≠ 0 ∧ l.natAbs ≤ nv := by
                intro cl hcl l hl
                obtain ⟨⟨cl0, hcl0, hl0⟩, _⟩ := hsl cl hcl l hl
                exact hwf1 cl0 hcl0 l hl0
              have hWx : ∀ cl ∈ p.1, ∀ l ∈ cl, updateA σ1 v x l.natAbs = 0 := by
                intro cl hcl l hl
                obtain ⟨⟨cl0, hcl0, hl0⟩, hne1, hne2⟩ := hsl cl hcl l hl
                have hna : l.natAbs ≠ v := by
                  intro he2
                  have hvv : l.natAbs =
                      (if x = 1 then Int.ofNat v else -Int.ofNat v).natAbs := by
                    rw [hnab, he2]
                  rcases Int.natAbs_eq_natAbs_iff.1 hvv with he3 | he3
                  · exact hne2 he3
                  · exact hne1 he3
                rw [updateA_ne _ _ hna]
                exact hW1 cl0 hcl0 l hl0
              exact ih hrec (RangeOk_updateA hR1 _ hx) hwfp hWx m htot hEx hpm
          rcases htot v hvrange.1 (by omega) with hmv | hmv
          · refine hkill 1 (Or.inl rfl) hmv ?_
            rcases hfacts.1 with hc | ⟨p, hps, hrec⟩
            · exact Or.inl (by rw [if_pos rfl]; exact hc)
            · exact Or.inr ⟨p, by rw [if_pos rfl]; exact hps, hrec⟩
          · refine hkill (-1) (Or.inr rfl) hmv ?_
            rcases hfacts.2 with hc | ⟨p, hps, hrec⟩
            · exact Or.inl (by rw [if_neg (by norm_num)]; exact hc)
            · exact Or.inr ⟨p, by rw [if_neg (by norm_num)]; exact hps, hrec⟩

/--
The dpll search terminates normally on well-formed input: with fuel
exceeding the number of unassigned variables it neither exhausts its
fuel (the Python recursion depth is bounded by the variable count) nor
crashes (no IndexError), so it returns sat or unsat.
-/
theorem dpll_no_crash_out {counts : Int → Nat} {nv : Nat} :
    ∀ {fuel clauses σ},
    (∀ cl ∈ clauses, ∀ l ∈ cl, l ≠ 0 ∧ l.natAbs ≤ nv) →
    RangeOk σ →
    ucount nv σ < fuel →
    dpll counts nv fuel clauses σ ≠ .crash ∧ dpll counts nv fuel clauses σ ≠ .out := by
  intro fuel
  induction fuel with
  | zero => intro clauses σ _ _ hlt; omega
  | succ fuel ih =>
    intro clauses σ hwf hR hlt
    rw [dpll]
    simp only []
    have hq0 : ∀ u ∈ ((clauses.filter (fun cl => cl.length = 1)).map List.headI).reverse,
        [u] ∈ clauses := by
      intro u hu
      rw [List.mem_reverse] at hu
      obtain ⟨cl, hcl, hhd⟩ := List.mem_map.1 hu
      have hfle := List.mem_filter.1 hcl
      have hlen : cl.length = 1 := by simpa using hfle.2
      have := length_one_eq hlen
      rw [hhd] at this
      rw [← this]
      exact hfle.1
    cases hp : propagate nv
        ((((clauses.filter (fun cl => cl.length = 1)).map List.headI).reverse).length +
          ucount nv σ * (clauses.length + 1) + 1) clauses σ
        (((clauses.filter (fun cl => cl.length = 1)).map List.headI).reverse) with
    | out =>
      exact absurd hp (propagate_fuel hR (by omega))
    | crash =>
      refine absurd hp (propagate_no_crash ?_ ?_)
      · exact fun cl hcl l hl => (hwf cl hcl l hl).2
      · exact fun u hu => (hwf _ (hq0 u hu) u (List.mem_singleton_self _)).2
    | conflict => simp
    | ok cs σ1 =>
      simp only []
      obtain ⟨hagree, hR1, _, hprov, _⟩ := propagate_ok hp hR
      have hwf1 : ∀ cl ∈ cs, ∀ l ∈ cl, l ≠ 0 ∧ l.natAbs ≤ nv := by
        intro cl hcl l hl
        obtain ⟨cl0, hcl0, hl0⟩ := hprov cl hcl l hl
        exact hwf cl0 hcl0 l hl0
      have huc1 : ucount nv σ1 ≤ ucount nv σ := by
        refine ucount_mono (fun i h0 => ?_)
        by_contra hne
        have := hagree i hne
        rw [this] at h0
        exact hne h0
      by_cases he : cs.isEmpty
      · rw [if_pos he]; simp
      · rw [if_neg he]
        cases hu : (List.range' 1 nv).filter (fun i => decide (σ1 i = 0)) with
        | nil => simp
        | cons u us =>
          simp only []
          set v := chooseVar counts u us with hv
          have hvmem : v ∈ u :: us := chooseVar_mem counts us u
          have hvfil : v ∈ (List.range' 1 nv).filter (fun i => decide (σ1 i = 0)) := by
            rw [hu]; exact hvmem
          have hσ1v : σ1 v = 0 := by
            have := (List.mem_filter.1 hvfil).2; simpa using this
          have hvrange : 1 ≤ v ∧ v < 1 + nv := by
            have := (List.mem_filter.1 hvfil).1
            exact List.mem_range'_1.1 this
          have hrecfuel : ∀ (x : Int), x ≠ 0 → ucount nv (updateA σ1 v x) < fuel := by
            intro x hx
            have := @ucount_updateA_lt nv σ1 v x (by omega) hσ1v hx
            omega
          have hbranchwf : ∀ (L : Int) (p : List Clause × List Int),
              simplifyStep L cs = some p →
              ∀ cl ∈ p.1, ∀ l ∈ cl, l ≠ 0 ∧ l.natAbs ≤ nv := by
            intro L p hps cl hcl l hl
            obtain ⟨hsl, _, _, _, _⟩ := simplifyStep_spec hps
            obtain ⟨⟨cl0, hcl0, hl0⟩, _⟩ := hsl cl hcl l hl
            exact hwf1 cl0 hcl0 l hl0
          cases hps : simplifyStep (Int.ofNat v) cs with
          | none =>
            simp only []
            cases hps2 : simplifyStep (-Int.ofNat v) cs with
            | none => simp
            | some p2 =>
              simp only []
              exact ih (hbranchwf _ p2 hps2) (RangeOk_updateA hR1 _ (Or.inr rfl))
                (hrecfuel (-1) (by norm_num))
          | some p =>
            simp only []
            cases hrec : dpll counts nv fuel p.1 (updateA σ1 v 1) with
            | sat m1 => simp
            | crash =>
              exact absurd hrec (ih (hbranchwf _ p hps)
                (RangeOk_updateA hR1 _ (Or.inl rfl)) (hrecfuel 1 (by norm_num))).1
            | out =>
              exact absurd hrec (ih (hbranchwf _ p hps)
                (RangeOk_updateA hR1 _ (Or.inl rfl)) (hrecfuel 1 (by norm_num))).2
            | unsat =>
              simp only []
              cases hps2 : simplifyStep (-Int.ofNat v) cs with
              | none => simp
              | some p2 =>
                simp only []
                exact ih (hbranchwf _ p2 hps2) (RangeOk_updateA hR1 _ (Or.inr rfl))
                  (hrecfuel (-1) (by norm_num))

theorem satisfies_dedup {m : Nat → Int} {cl : Clause} :
    satisfies m cl.dedup ↔ satisfies m cl := by
  unfold satisfies
  constructor
  · rintro ⟨l, hl, hlt⟩; exact ⟨l, List.mem_dedup.1 hl, hlt⟩
  · rintro ⟨l, hl, hlt⟩; exact ⟨l, List.mem_dedup.2 hl, hlt⟩

theorem all_sat_dedup {m : Nat → Int} {clauses : List Clause} :
    (∀ cl ∈ clauses.map List.dedup, satisfies m cl) ↔
    (∀ cl ∈ clauses, satisfies m cl) := by
  constructor
  · intro h cl hcl
    exact satisfies_dedup.1 (h cl.dedup (List.mem_map_of_mem _ hcl))
  · intro h cl hcl
    obtain ⟨cl0, hcl0, rfl⟩ := List.mem_map.1 hcl
    exact satisfies_dedup.2 (h cl0 hcl0)

theorem wf_dedup {clauses : List Clause} {nv : Nat} (h : wfInstance clauses nv) :
    wfInstance (clauses.map List.dedup) nv := by
  intro cl hcl l hl
  obtain ⟨cl0, hcl0, rfl⟩ := List.mem_map.1 hcl
  exact h cl0 hcl0 l (List.mem_dedup.1 hl)

theorem zeroAssign_RangeOk : RangeOk (fun _ => (0 : Int)) := fun _ => Or.inl rfl

theorem zeroAssign_W (clauses : List Clause) :
    ∀ cl ∈ clauses, ∀ l ∈ cl, (fun _ => (0 : Int)) l.natAbs = 0 :=
  fun _ _ _ _ => rfl

/-- The decoding loop succeeds (no grid IndexError) whenever the
variable count stays within the hardcoded 9 by 9 grid, i.e. 729. -/
theorem decodeGrid_isSome {m : Nat → Int} {nv : Nat} (h : nv ≤ 729) :
    ∃ g, decodeGrid m nv = some g := by
  unfold decodeGrid
  have key : ∀ (l : List Nat), (∀ vi ∈ l, vi ≤ 729) → ∀ g0 : List (List Int),
      ∃ g, l.foldl
        (fun og vi =>
          og.bind fun g =>
            if m vi = 1 then
              let v := vi - 1
              let row := v / 81
              let col := (v % 81) / 9
              let digit : Int := (v % 9) + 1
              if row < 9 then some (g.set row ((g.getD row []).set col digit)) else none
            else some g)
        (some g0) = some g := by
    intro l
    induction l with
    | nil => intro _ g0; exact ⟨g0, rfl⟩
    | cons vi t ih =>
      intro hb g0
      rw [List.foldl_cons]
      simp only [Option.some_bind]
      by_cases hm : m vi = 1
      · rw [if_pos hm]
        have hrow : vi - 1 < 729 := by have := hb vi (List.mem_cons_self _ _); omega
        rw [if_pos (by omega)]
        exact ih (fun w hw => hb w (List.mem_cons_of_mem _ hw)) _
      · rw [if_neg hm]
        exact ih (fun w hw => hb w (List.mem_cons_of_mem _ hw)) _
  refine key _ ?_ _
  intro vi hvi
  have := List.mem_range'_1.1 hvi
  omega

/--
C1.  Soundness of the solver: whenever solve_cnf of src/solver.py
returns status "SAT", the model dpll derived is a total assignment on
variables 1..num_vars (every entry 1 or -1, none unassigned) and every
clause of the originating instance contains a literal made true by it.
-/
theorem C1_solver_soundness
    (clauses : List Clause) (nv : Nat) (g : Option (List (List Int)))
    (h : solve_cnf clauses nv = some ("SAT", g)) :
    ∃ m, runDpll clauses nv = DpllResult.sat m ∧ totalOn m nv ∧
      ∀ cl ∈ clauses, satisfies m cl := by
  unfold solve_cnf at h
  cases hr : runDpll clauses nv with
  | sat m =>
    refine ⟨m, rfl, ?_⟩
    have hs := dpll_sound hr zeroAssign_RangeOk
    exact ⟨hs.2.1, all_sat_dedup.1 hs.2.2⟩
  | unsat => rw [hr] at h; simp at h
  | crash => rw [hr] at h; simp at h
  | out => rw [hr] at h; simp at h

/-- C1 witness: a concrete satisfiable instance. -/
theorem C1_witness :
    solve_cnf [[1]] 1 = some ("SAT",
      some [[1, 0, 0, 0, 0, 0, 0, 0, 0], [0, 0, 0, 0, 0, 0, 0, 0, 0],
        [0, 0, 0, 0, 0, 0, 0, 0, 0], [0, 0, 0, 0, 0, 0, 0, 0, 0],
        [0, 0, 0, 0, 0, 0, 0, 0, 0], [0, 0, 0, 0, 0, 0, 0, 0, 0],
        [0, 0, 0, 0, 0, 0, 0, 0, 0], [0, 0, 0, 0, 0, 0, 0, 0, 0],
        [0, 0, 0, 0, 0, 0, 0, 0, 0]]) ∧
    ∃ m, runDpll [[1]] 1 = DpllResult.sat m ∧ totalOn m 1 ∧
      ∀ cl ∈ [[(1 : Int)]], satisfies m cl :=
  ⟨by decide, C1_solver_soundness [[1]] 1
    (some [[1, 0, 0, 0, 0, 0, 0, 0, 0], [0, 0, 0, 0, 0, 0, 0, 0, 0],
      [0, 0, 0, 0, 0, 0, 0, 0, 0], [0, 0, 0, 0, 0, 0, 0, 0, 0],
      [0, 0, 0, 0, 0, 0, 0, 0, 0], [0, 0, 0, 0, 0, 0, 0, 0, 0],
      [0, 0, 0, 0, 0, 0, 0, 0, 0], [0, 0, 0, 0, 0, 0, 0, 0, 0],
      [0, 0, 0, 0, 0, 0, 0, 0, 0]]) (by decide)⟩

set_option maxRecDepth 80000 in
/--
C2 counterexample: the claim promises a verdict for every finite CNF
instance, but on the well-formed instance [[730]] with 730 variables
dpll finds the satisfying model and the hardcoded 9 by 9 decoding then
computes row index 9 for variable 730, so Python raises IndexError and
solve_cnf returns no verdict (modelled by none).
-/
theorem C2_counterexample :
    wfInstance [[730]] 730 ∧ solve_cnf [[730]] 730 = none :=
  ⟨by decide, by decide⟩

/--
C2 (amended).  Completeness and termination of the solver on instances
within the decoder range: for every well-formed CNF instance with at
most 729 variables (the range the hardcoded 9 by 9 decode supports),
solve_cnf terminates with a verdict, "SAT" exactly when a total
assignment satisfies every clause and "UNSAT" exactly when none does;
the branch-failure path taken when clauses remain but no unassigned
variable exists never discards a satisfiable branch.
-/
theorem C2_solver_decides
    (clauses : List Clause) (nv : Nat)
    (hwf : wfInstance clauses nv) (hnv : nv ≤ 729) :
    ∃ st g, solve_cnf clauses nv = some (st, g) ∧
      (st = "SAT" ∨ st = "UNSAT") ∧
      (st = "SAT" ↔ ∃ m, totalOn m nv ∧ ∀ cl ∈ clauses, satisfies m cl) ∧
      (st = "UNSAT" ↔ ¬ ∃ m, totalOn m nv ∧ ∀ cl ∈ clauses, satisfies m cl) := by
  have hwfd := wf_dedup hwf
  have hfuel : ucount nv (fun _ => (0 : Int)) < nv + 2 := by
    have := ucount_le nv (fun _ => (0 : Int)); omega
  cases hr : runDpll clauses nv with
  | crash => exact absurd hr (dpll_no_crash_out hwfd zeroAssign_RangeOk hfuel).1
  | out => exact absurd hr (dpll_no_crash_out hwfd zeroAssign_RangeOk hfuel).2
  | sat m =>
    obtain ⟨g, hg⟩ := decodeGrid_isSome (m := m) hnv
    have hs := dpll_sound hr zeroAssign_RangeOk
    have hsat : ∃ m, totalOn m nv ∧ ∀ cl ∈ clauses, satisfies m cl :=
      ⟨m, hs.2.1, all_sat_dedup.1 hs.2.2⟩
    refine ⟨"SAT", some g, ?_, Or.inl rfl, ?_, ?_⟩
    · unfold solve_cnf
      rw [hr]
      simp only []
      rw [hg]
    · exact ⟨fun _ => hsat, fun _ => rfl⟩
    · constructor
      · intro hstr; exact absurd hstr (by decide)
      · intro hno; exact absurd hsat hno
  | unsat =>
    have hnosat : ¬ ∃ m, totalOn m nv ∧ ∀ cl ∈ clauses, satisfies m cl := by
      rintro ⟨m, htot, hsat⟩
      refine dpll_complete hr zeroAssign_RangeOk hwfd (zeroAssign_W _) m htot ?_ ?_
      · intro i hi; exact absurd rfl hi
      · exact all_sat_dedup.2 hsat
    refine ⟨"UNSAT", none, ?_, Or.inr rfl, ?_, ?_⟩
    · unfold solve_cnf; rw [hr]
    · constructor
      · intro h; exact absurd h (by decide)
      · intro h; exact absurd h hnosat
    · exact ⟨fun _ => hnosat, fun _ => rfl⟩

/-- C2 witness: a concrete unsatisfiable instance within range. -/
theorem C2_witness :
    wfInstance [[(1 : Int)], [-1]] 1 ∧
    (∃ st g, solve_cnf [[(1 : Int)], [-1]] 1 = some (st, g) ∧
      (st = "SAT" ∨ st = "UNSAT") ∧
      (st = "SAT" ↔ ∃ m, totalOn m 1 ∧ ∀ cl ∈ [[(1 : Int)], [-1]], satisfies m cl) ∧
      (st = "UNSAT" ↔ ¬ ∃ m, totalOn m 1 ∧ ∀ cl ∈ [[(1 : Int)], [-1]], satisfies m cl)) :=
  ⟨by decide, C2_solver_decides [[(1 : Int)], [-1]] 1 (by decide) (by omega)⟩


theorem varN_bounds {N r c v : Nat} (hr : r < N) (hc : c < N)
    (hv1 : 1 ≤ v) (hv2 : v ≤ N) :
    1 ≤ varN N r c v ∧ varN N r c v ≤ N ^ 3 := by
  constructor
  · unfold varN; omega
  · unfold varN
    have h2 : c + 1 ≤ N := hc
    calc r * N * N + c * N + v ≤ r * N * N + c * N + N := by omega
      _ = r * N * N + (c + 1) * N := by ring
      _ ≤ r * N * N + N * N := by
          have := Nat.mul_le_mul_right N h2; omega
      _ = (r + 1) * (N * N) := by ring
      _ ≤ N * (N * N) := Nat.mul_le_mul_right _ hr
      _ = N ^ 3 := by ring

theorem varN_digits {N r c v : Nat} (hc : c < N) (hv1 : 1 ≤ v) (hv2 : v ≤ N) :
    (varN N r c v - 1) / (N * N) = r ∧
    ((varN N r c v - 1) % (N * N)) / N = c ∧
    (varN N r c v - 1) % N = v - 1 := by
  have hN : 1 ≤ N := le_trans hv1 hv2
  have hrest : c * N + (v - 1) < N * N := by
    have h2 : c + 1 ≤ N := hc
    have h3 : (c + 1) * N ≤ N * N := Nat.mul_le_mul_right N h2
    have h4 : c * N + N = (c + 1) * N := by ring
    omega
  have he : varN N r c v - 1 = (N * N) * r + (c * N + (v - 1)) := by
    have h0 : varN N r c v = r * N * N + c * N + v := rfl
    have h1 : r * N * N = (N * N) * r := by ring
    omega
  refine ⟨?_, ?_, ?_⟩
  · rw [he, Nat.mul_add_div (by positivity), Nat.div_eq_of_lt hrest]
    omega
  · rw [he, Nat.mul_add_mod, Nat.mod_eq_of_lt hrest]
    have h5 : c * N + (v - 1) = N * c + (v - 1) := by ring
    rw [h5, Nat.mul_add_div (by omega), Nat.div_eq_of_lt (by omega)]
    omega
  · have he2 : varN N r c v - 1 = N * (r * N + c) + (v - 1) := by
      have h0 : varN N r c v = r * N * N + c * N + v := rfl
      have h1 : r * N * N + c * N = N * (r * N + c) := by ring
      omega
    rw [he2, Nat.mul_add_mod, Nat.mod_eq_of_lt (by omega)]

theorem varN_inj {N r c v r' c' v' : Nat}
    (hc : c < N) (hv1 : 1 ≤ v) (hv2 : v ≤ N)
    (hc' : c' < N) (hv1' : 1 ≤ v') (hv2' : v' ≤ N)
    (h : varN N r c v = varN N r' c' v') : r = r' ∧ c = c' ∧ v = v' := by
  obtain ⟨d1, d2, d3⟩ := varN_digits (r := r) hc hv1 hv2
  obtain ⟨e1, e2, e3⟩ := varN_digits (r := r') hc' hv1' hv2'
  rw [h] at d1 d2 d3
  refine ⟨d1.symm.trans e1, d2.symm.trans e2, ?_⟩
  have := d3.symm.trans e3
  omega

theorem varN_inverse {N i : Nat} (hN : 1 ≤ N) (h1 : 1 ≤ i) (h2 : i ≤ N ^ 3) :
    (i - 1) / (N * N) < N ∧ ((i - 1) % (N * N)) / N < N ∧
    1 ≤ (i - 1) % N + 1 ∧ (i - 1) % N + 1 ≤ N ∧
    varN N ((i - 1) / (N * N)) (((i - 1) % (N * N)) / N) ((i - 1) % N + 1) = i := by
  have hNN : 0 < N * N := by positivity
  have hcube : N ^ 3 = N * (N * N) := by ring
  refine ⟨?_, ?_, by omega, ?_, ?_⟩
  · rw [Nat.div_lt_iff_lt_mul hNN]
    have h3 : i - 1 < N ^ 3 := by omega
    have h4 : N ^ 3 = N * N * N := by ring
    omega
  · rw [Nat.div_lt_iff_lt_mul (by omega)]
    have := Nat.mod_lt (i - 1) hNN
    omega
  · have := Nat.mod_lt (i - 1) (y := N) (by omega)
    omega
  · have k1 := Nat.div_add_mod (i - 1) (N * N)
    have k2 := Nat.div_add_mod ((i - 1) % (N * N)) N
    have k3 : (i - 1) % (N * N) % N = (i - 1) % N :=
      Nat.mod_mod_of_dvd _ ⟨N, rfl⟩
    have h0 : varN N ((i - 1) / (N * N)) (((i - 1) % (N * N)) / N) ((i - 1) % N + 1) =
        (i - 1) / (N * N) * N * N + ((i - 1) % (N * N)) / N * N + ((i - 1) % N + 1) := rfl
    have e1 : (i - 1) / (N * N) * N * N = (N * N) * ((i - 1) / (N * N)) := by ring
    have e2 : ((i - 1) % (N * N)) / N * N = N * (((i - 1) % (N * N)) / N) := by ring
    omega

/--
C3.  Variable-numbering bijection: for every perfect-square N, the
mapping var(r,c,v) = r*N*N + c*N + v with r,c < N and 1 ≤ v ≤ N is
injective, lands in 1..N³, covers all of 1..N³, and both encoders
return num_vars = N³, the number of distinct variables var produces.
-/
theorem C3_var_bijection (N B : Nat) (hB : N = B * B) (hN : 1 ≤ N) :
    (∀ r c v r' c' v', c < N → 1 ≤ v → v ≤ N → c' < N → 1 ≤ v' → v' ≤ N →
      varN N r c v = varN N r' c' v' → r = r' ∧ c = c' ∧ v = v') ∧
    (∀ r c v, r < N → c < N → 1 ≤ v → v ≤ N →
      1 ≤ varN N r c v ∧ varN N r c v ≤ N ^ 3) ∧
    (∀ i, 1 ≤ i → i ≤ N ^ 3 → ∃ r c v, r < N ∧ c < N ∧ 1 ≤ v ∧ v ≤ N ∧
      varN N r c v = i) ∧
    (∀ text : List (List Nat), text.length = N →
      (solving.to_cnf text).2 = N ^ 3 ∧ (CODE.to_cnf text).2 = N ^ 3) := by
  refine ⟨?_, ?_, ?_, ?_⟩
  · intro r c v r' c' v' hc hv1 hv2 hc' hv1' hv2' h
    exact varN_inj hc hv1 hv2 hc' hv1' hv2' h
  · intro r c v hr hc hv1 hv2
    exact varN_bounds hr hc hv1 hv2
  · intro i h1 h2
    obtain ⟨hr, hc, hv1, hv2, he⟩ := varN_inverse hN h1 h2
    exact ⟨_, _, _, hr, hc, hv1, hv2, he⟩
  · intro text h
    unfold solving.to_cnf CODE.to_cnf
    rw [h]
    constructor <;> ring

/-- C3 witness: the bijection at the concrete perfect square N = 4. -/
theorem C3_witness :
    (4 = 2 * 2 ∧ 1 ≤ 4) ∧
    ((∀ r c v r' c' v', c < 4 → 1 ≤ v → v ≤ 4 → c' < 4 → 1 ≤ v' → v' ≤ 4 →
      varN 4 r c v = varN 4 r' c' v' → r = r' ∧ c = c' ∧ v = v') ∧
    (∀ r c v, r < 4 → c < 4 → 1 ≤ v → v ≤ 4 →
      1 ≤ varN 4 r c v ∧ varN 4 r c v ≤ 4 ^ 3) ∧
    (∀ i, 1 ≤ i → i ≤ 4 ^ 3 → ∃ r c v, r < 4 ∧ c < 4 ∧ 1 ≤ v ∧ v ≤ 4 ∧
      varN 4 r c v = i) ∧
    (∀ text : List (List Nat), text.length = 4 →
      (solving.to_cnf text).2 = 4 ^ 3 ∧ (CODE.to_cnf text).2 = 4 ^ 3)) :=
  ⟨⟨rfl, by omega⟩, C3_var_bijection 4 2 rfl (by omega)⟩

/--
C4 counterexample: the claim asserts the source's model-to-grid
decoding applies the inverse with the puzzle's actual N.  For N = 4,
variable 5 is var(0,1,1) (cell (0,1), value 1), but the source decode
(hardcoded N = 9 arithmetic) writes digit 5 into cell (0,0) and leaves
cell (0,1) at 0.
-/
theorem C4_counterexample :
    specInverse 4 5 = (0, 1, 1) ∧ varN 4 0 1 1 = 5 ∧
    decodeGrid (fun i => if i = 5 then 1 else -1) 64 =
      some [[5, 0, 0, 0, 0, 0, 0, 0, 0], [0, 0, 0, 0, 0, 0, 0, 0, 0],
        [0, 0, 0, 0, 0, 0, 0, 0, 0], [0, 0, 0, 0, 0, 0, 0, 0, 0],
        [0, 0, 0, 0, 0, 0, 0, 0, 0], [0, 0, 0, 0, 0, 0, 0, 0, 0],
        [0, 0, 0, 0, 0, 0, 0, 0, 0], [0, 0, 0, 0, 0, 0, 0, 0, 0],
        [0, 0, 0, 0, 0, 0, 0, 0, 0]] := by
  refine ⟨rfl, rfl, by decide⟩

/--
C4 (amended).  The spec's inverse formula is the exact inverse of the
encoder's variable mapping for the actual N: for every N ≥ 1 and
variable id i in 1..N³ the recovered triple (r,c,v) is in range and
satisfies var(r,c,v) = i.  The source's model-to-grid decoding applies
this inverse with N hardcoded to 9 (it equals the spec decode
instantiated at N = 9), not with the puzzle's actual N.
-/
theorem C4_decode_inverse :
    (∀ N i, 1 ≤ N → 1 ≤ i → i ≤ N ^ 3 →
      (specInverse N i).1 < N ∧ (specInverse N i).2.1 < N ∧
      1 ≤ (specInverse N i).2.2 ∧ (specInverse N i).2.2 ≤ N ∧
      varN N (specInverse N i).1 (specInverse N i).2.1 (specInverse N i).2.2 = i) ∧
    (∀ m nv, decodeGrid m nv = decodeGridSpec 9 m nv) := by
  constructor
  · intro N i hN h1 h2
    exact varN_inverse hN h1 h2
  · intro m nv
    rfl

/-- C4 witness: the inverse at N = 4, i = 5, and the source decode on a
concrete model. -/
theorem C4_witness :
    (1 ≤ 4 ∧ 1 ≤ 5 ∧ 5 ≤ 4 ^ 3) ∧
    ((specInverse 4 5).1 < 4 ∧ (specInverse 4 5).2.1 < 4 ∧
      1 ≤ (specInverse 4 5).2.2 ∧ (specInverse 4 5).2.2 ≤ 4 ∧
      varN 4 (specInverse 4 5).1 (specInverse 4 5).2.1 (specInverse 4 5).2.2 = 5) ∧
    decodeGrid (fun _ => -1) 1 = decodeGridSpec 9 (fun _ => -1) 1 :=
  ⟨⟨by omega, by omega, by omega⟩,
   C4_decode_inverse.1 4 5 (by omega) (by omega) (by omega),
   C4_decode_inverse.2 (fun _ => -1) 1⟩

/--
C5 theorem at the failing input: on a blank 4 by 4 grid, the cell
at-least-one clause of src/CODE/encoder.py for cell (0,0) is
[var(0,0,v) for v in 1..9] = [1..9] (range(1,10) is hardcoded), nine
literals instead of the N = 4 literals [1,2,3,4] the claim prescribes;
the solving encoder emits the correct [1,2,3,4].
-/
theorem C5_cell_family_hardcoded :
    (CODE.to_cnf [[0, 0, 0, 0], [0, 0, 0, 0], [0, 0, 0, 0], [0, 0, 0, 0]]).1.head? =
      some [1, 2, 3, 4, 5, 6, 7, 8, 9] ∧
    (solving.to_cnf [[0, 0, 0, 0], [0, 0, 0, 0], [0, 0, 0, 0], [0, 0, 0, 0]]).1.head? =
      some [1, 2, 3, 4] := by
  constructor <;> decide

/--
C8 counterexample: solve_cnf on the empty clause list reports SAT with
a model in which no variable is true (dpll defaults all variables to
-1), and the decoding silently returns the all-zero 9 by 9 grid: no
IncompleteModel error exists in the source.
-/
theorem C8_counterexample :
    solve_cnf [] 4 =
      some ("SAT", some (List.replicate 9 (List.replicate 9 (0 : Int)))) := by
  decide

theorem decode_foldl_none (m : Nat → Int) (l : List Nat) :
    l.foldl
      (fun og vi =>
        og.bind fun g =>
          if m vi = 1 then
            if (vi - 1) / 81 < 9 then
              some (g.set ((vi - 1) / 81)
                ((g.getD ((vi - 1) / 81) []).set (((vi - 1) % 81) / 9)
                  ((((vi - 1) % 9 : Nat) : Int) + 1)))
            else none
          else some g)
      (none : Option (List (List Int))) = none := by
  induction l with
  | nil => rfl
  | cons vi t ih =>
    rw [List.foldl_cons]
    simp only [Option.none_bind]
    exact ih

theorem set_cell_keep (g : List (List Int)) (row col r c : Nat) (d : Int)
    (h : ¬(row = r ∧ col = c)) :
    ((g.set row ((g.getD row []).set col d)).getD r []).getD c 0 =
      (g.getD r []).getD c 0 := by
  by_cases hrow : row = r
  · subst hrow
    have hcol : col ≠ c := fun hc => h ⟨rfl, hc⟩
    by_cases hlen : row < g.length
    · simp only [List.getD_eq_getElem?_getD]
      rw [List.getElem?_set_self hlen]
      simp only [Option.getD_some]
      rw [List.getElem?_set_ne hcol]
    · rw [List.set_eq_of_length_le (Nat.le_of_not_lt hlen)]
  · simp only [List.getD_eq_getElem?_getD]
    rw [List.getElem?_set_ne hrow]

theorem decode_foldl_keep (m : Nat → Int) (r c : Nat) (l : List Nat) :
    ∀ g0 g : List (List Int),
    (∀ i ∈ l, m i = 1 → ¬((i - 1) / 81 = r ∧ ((i - 1) % 81) / 9 = c)) →
    l.foldl
      (fun og vi =>
        og.bind fun g =>
          if m vi = 1 then
            if (vi - 1) / 81 < 9 then
              some (g.set ((vi - 1) / 81)
                ((g.getD ((vi - 1) / 81) []).set (((vi - 1) % 81) / 9)
                  ((((vi - 1) % 9 : Nat) : Int) + 1)))
            else none
          else some g)
      (some g0) = some g →
    (g.getD r []).getD c 0 = (g0.getD r []).getD c 0 := by
  induction l with
  | nil =>
    intro g0 g hmiss hfold
    rw [List.foldl_nil] at hfold
    injection hfold with h
    rw [h]
  | cons vi t ih =>
    intro g0 g hmiss hfold
    rw [List.foldl_cons] at hfold
    simp only [Option.some_bind] at hfold
    by_cases hm : m vi = 1
    · rw [if_pos hm] at hfold
      by_cases hrow : (vi - 1) / 81 < 9
      · rw [if_pos hrow] at hfold
        have hkeep := ih _ g (fun i hi => hmiss i (List.mem_cons_of_mem vi hi)) hfold
        rw [hkeep]
        exact set_cell_keep g0 ((vi - 1) / 81) (((vi - 1) % 81) / 9) r c _
          (hmiss vi (List.mem_cons_self vi t) hm)
      · rw [if_neg hrow] at hfold
        rw [decode_foldl_none] at hfold
        exact Option.noConfusion hfold
    · rw [if_neg hm] at hfold
      exact ih g0 g (fun i hi => hmiss i (List.mem_cons_of_mem vi hi)) hfold

/--
C8 (amended).  If for some cell (r,c) of the hardcoded 9 by 9 grid no
variable var(r,c,v) with v in 1..9 is assigned true in the model, the
decoding step of src/solver.py silently leaves 0 in that grid cell -
while still writing every other decoded cell - and returns the grid
normally instead of failing with an IncompleteModel error.
-/
theorem C8_decoder_silent_zero (m : Nat → Int) (nv r c : Nat)
    (g : List (List Int)) (hr : r < 9) (hc : c < 9)
    (hmiss : ∀ v, 1 ≤ v → v ≤ 9 → m (varN 9 r c v) ≠ 1)
    (hdec : decodeGrid m nv = some g) :
    (g.getD r []).getD c 0 = 0 := by
  unfold decodeGrid at hdec
  have hmiss' : ∀ i ∈ List.range' 1 nv, m i = 1 →
      ¬((i - 1) / 81 = r ∧ ((i - 1) % 81) / 9 = c) := by
    intro i hi hm hdig
    obtain ⟨h1, h2⟩ := hdig
    have hi1 : 1 ≤ i := (List.mem_range'_1.mp hi).1
    have heq : i = varN 9 r c ((i - 1) % 9 + 1) := by
      unfold varN
      have e3 : (i - 1) % 81 % 9 = (i - 1) % 9 :=
        Nat.mod_mod_of_dvd (i - 1) (by norm_num)
      omega
    exact hmiss ((i - 1) % 9 + 1) (by omega) (by omega) (heq ▸ hm)
  have hkeep := decode_foldl_keep m r c (List.range' 1 nv)
    (List.replicate 9 (List.replicate 9 (0 : Int))) g hmiss' hdec
  rw [hkeep]
  have hr9 : r < (List.replicate 9 (List.replicate 9 (0 : Int))).length := by
    rw [List.length_replicate]
    exact hr
  rw [List.getD_eq_getElem _ _ hr9, List.getElem_replicate]
  have hc9 : c < (List.replicate 9 (0 : Int)).length := by
    rw [List.length_replicate]
    exact hc
  rw [List.getD_eq_getElem _ _ hc9, List.getElem_replicate]

/-- C8 witness: the model assigning only variable 1 true (the dpll
model for the instance [[1]] with 81 variables, all other variables
defaulted to -1) decodes to a grid that records digit 1 at cell (0,0)
but silently leaves 0 at cell (0,1), for which no variable is true. -/
theorem C8_witness :
    ((0 : Nat) < 9 ∧ (1 : Nat) < 9) ∧
    (∀ v : Nat, 1 ≤ v → v ≤ 9 →
      (fun i => if i = 1 then (1 : Int) else -1) (varN 9 0 1 v) ≠ 1) ∧
    decodeGrid (fun i => if i = 1 then (1 : Int) else -1) 81 =
      some [[1, 0, 0, 0, 0, 0, 0, 0, 0], [0, 0, 0, 0, 0, 0, 0, 0, 0],
        [0, 0, 0, 0, 0, 0, 0, 0, 0], [0, 0, 0, 0, 0, 0, 0, 0, 0],
        [0, 0, 0, 0, 0, 0, 0, 0, 0], [0, 0, 0, 0, 0, 0, 0, 0, 0],
        [0, 0, 0, 0, 0, 0, 0, 0, 0], [0, 0, 0, 0, 0, 0, 0, 0, 0],
        [0, 0, 0, 0, 0, 0, 0, 0, 0]] ∧
    ([[(1 : Int), 0, 0, 0, 0, 0, 0, 0, 0], [0, 0, 0, 0, 0, 0, 0, 0, 0],
        [0, 0, 0, 0, 0, 0, 0, 0, 0], [0, 0, 0, 0, 0, 0, 0, 0, 0],
        [0, 0, 0, 0, 0, 0, 0, 0, 0], [0, 0, 0, 0, 0, 0, 0, 0, 0],
        [0, 0, 0, 0, 0, 0, 0, 0, 0], [0, 0, 0, 0, 0, 0, 0, 0, 0],
        [0, 0, 0, 0, 0, 0, 0, 0, 0]].getD 0 []).getD 1 0 = 0 := by
  have hm : ∀ v : Nat, 1 ≤ v → v ≤ 9 →
      (fun i => if i = 1 then (1 : Int) else -1) (varN 9 0 1 v) ≠ 1 := by
    intro v h1 h2
    show (if varN 9 0 1 v = 1 then (1 : Int) else -1) ≠ 1
    rw [if_neg (by unfold varN; omega)]
    decide
  have hd : decodeGrid (fun i => if i = 1 then (1 : Int) else -1) 81 =
      some [[1, 0, 0, 0, 0, 0, 0, 0, 0], [0, 0, 0, 0, 0, 0, 0, 0, 0],
        [0, 0, 0, 0, 0, 0, 0, 0, 0], [0, 0, 0, 0, 0, 0, 0, 0, 0],
        [0, 0, 0, 0, 0, 0, 0, 0, 0], [0, 0, 0, 0, 0, 0, 0, 0, 0],
        [0, 0, 0, 0, 0, 0, 0, 0, 0], [0, 0, 0, 0, 0, 0, 0, 0, 0],
        [0, 0, 0, 0, 0, 0, 0, 0, 0]] := by decide
  exact ⟨⟨by decide, by decide⟩, hm, hd,
    C8_decoder_silent_zero (fun i => if i = 1 then (1 : Int) else -1) 81 0 1 _
      (by decide) (by decide) hm hd⟩

/--
C10.  The stub solver of src/solving/solver.py never decides
satisfiability: for every input it returns the Python value None,
never a ("SAT", model) or ("UNSAT", None) pair; it only records the
polarities of the initial unit clauses in its dictionary and prints it.
-/
theorem C10_stub_returns_none (clauses : List (List Int)) (num_vars : Nat) :
    (solving.solve_cnf clauses num_vars).2 = none := rfl

theorem mem_ite_nil {α : Type} {P : Prop} [Decidable P] {l : List α} {x : α} :
    x ∈ (if P then l else []) ↔ P ∧ x ∈ l := by
  split
  · next hp => simp [hp]
  · next hp => simp [hp]

namespace solving

theorem adjF1_mem {N r c v : Nat} (hr : r < N) (hc : c < N) (hv1 : 1 ≤ v) (hv2 : v ≤ N)
    (hc1 : c + 1 < N) (hvN : v < N) :
    [-(varN N r c v : Int), -(varN N r (c + 1) (v + 1) : Int)] ∈ adjClauses N := by
  unfold adjClauses
  rw [List.mem_flatMap]
  refine ⟨r, List.mem_range.2 hr, ?_⟩
  rw [List.mem_flatMap]
  refine ⟨c, List.mem_range.2 hc, ?_⟩
  rw [List.mem_flatMap]
  refine ⟨v, List.mem_range'_1.2 ⟨hv1, by omega⟩, ?_⟩
  unfold adjBlock
  rw [List.mem_append]
  left
  rw [mem_ite_nil]
  refine ⟨hc1, ?_⟩
  rw [List.mem_append]
  left
  rw [mem_ite_nil]
  exact ⟨hvN, List.mem_singleton_self _⟩

theorem adjF2_mem {N r c v : Nat} (hr : r < N) (hc : c < N) (hv1 : 1 ≤ v) (hv2 : v ≤ N)
    (hc1 : c + 1 < N) (hv1' : 1 < v) :
    [-(varN N r c v : Int), -(varN N r (c + 1) (v - 1) : Int)] ∈ adjClauses N := by
  unfold adjClauses
  rw [List.mem_flatMap]
  refine ⟨r, List.mem_range.2 hr, ?_⟩
  rw [List.mem_flatMap]
  refine ⟨c, List.mem_range.2 hc, ?_⟩
  rw [List.mem_flatMap]
  refine ⟨v, List.mem_range'_1.2 ⟨hv1, by omega⟩, ?_⟩
  unfold adjBlock
  rw [List.mem_append]
  left
  rw [mem_ite_nil]
  refine ⟨hc1, ?_⟩
  rw [List.mem_append]
  right
  rw [mem_ite_nil]
  exact ⟨hv1', List.mem_singleton_self _⟩

theorem adjF3_mem {N r c v : Nat} (hr : r < N) (hc : c < N) (hv1 : 1 ≤ v) (hv2 : v ≤ N)
    (hr1 : r + 1 < N) (hvN : v < N) :
    [-(varN N r c v : Int), -(varN N (r + 1) c (v + 1) : Int)] ∈ adjClauses N := by
  unfold adjClauses
  rw [List.mem_flatMap]
  refine ⟨r, List.mem_range.2 hr, ?_⟩
  rw [List.mem_flatMap]
  refine ⟨c, List.mem_range.2 hc, ?_⟩
  rw [List.mem_flatMap]
  refine ⟨v, List.mem_range'_1.2 ⟨hv1, by omega⟩, ?_⟩
  unfold adjBlock
  rw [List.mem_append]
  right
  rw [mem_ite_nil]
  refine ⟨hr1, ?_⟩
  rw [List.mem_append]
  left
  rw [mem_ite_nil]
  exact ⟨hvN, List.mem_singleton_self _⟩

theorem adjF4_mem {N r c v : Nat} (hr : r < N) (hc : c < N) (hv1 : 1 ≤ v) (hv2 : v ≤ N)
    (hr1 : r + 1 < N) (hv1' : 1 < v) :
    [-(varN N r c v : Int), -(varN N (r + 1) c (v - 1) : Int)] ∈ adjClauses N := by
  unfold adjClauses
  rw [List.mem_flatMap]
  refine ⟨r, List.mem_range.2 hr, ?_⟩
  rw [List.mem_flatMap]
  refine ⟨c, List.mem_range.2 hc, ?_⟩
  rw [List.mem_flatMap]
  refine ⟨v, List.mem_range'_1.2 ⟨hv1, by omega⟩, ?_⟩
  unfold adjBlock
  rw [List.mem_append]
  right
  rw [mem_ite_nil]
  refine ⟨hr1, ?_⟩
  rw [List.mem_append]
  right
  rw [mem_ite_nil]
  exact ⟨hv1', List.mem_singleton_self _⟩

/-- Every clause of the right/down adjacency enumeration has one of the
four source forms, with the guards that emitted it. -/
theorem adjClauses_elim {N : Nat} {cl : List Int} (h : cl ∈ adjClauses N) :
    ∃ r c v, r < N ∧ c < N ∧ 1 ≤ v ∧ v ≤ N ∧
      ((c + 1 < N ∧ v < N ∧
         cl = [-(varN N r c v : Int), -(varN N r (c + 1) (v + 1) : Int)]) ∨
       (c + 1 < N ∧ 1 < v ∧
         cl = [-(varN N r c v : Int), -(varN N r (c + 1) (v - 1) : Int)]) ∨
       (r + 1 < N ∧ v < N ∧
         cl = [-(varN N r c v : Int), -(varN N (r + 1) c (v + 1) : Int)]) ∨
       (r + 1 < N ∧ 1 < v ∧
         cl = [-(varN N r c v : Int), -(varN N (r + 1) c (v - 1) : Int)])) := by
  unfold adjClauses at h
  rw [List.mem_flatMap] at h
  obtain ⟨r, hr, h⟩ := h
  rw [List.mem_flatMap] at h
  obtain ⟨c, hc, h⟩ := h
  rw [List.mem_flatMap] at h
  obtain ⟨v, hv, h⟩ := h
  rw [List.mem_range] at hr hc
  rw [List.mem_range'_1] at hv
  refine ⟨r, c, v, hr, hc, hv.1, by omega, ?_⟩
  unfold adjBlock at h
  rw [List.mem_append] at h
  rcases h with h | h
  · rw [mem_ite_nil] at h
    obtain ⟨hc1, h⟩ := h
    rw [List.mem_append] at h
    rcases h with h | h
    · rw [mem_ite_nil] at h
      obtain ⟨hvN, h⟩ := h
      rw [List.mem_singleton] at h
      exact Or.inl ⟨hc1, hvN, h⟩
    · rw [mem_ite_nil] at h
      obtain ⟨hv1, h⟩ := h
      rw [List.mem_singleton] at h
      exact Or.inr (Or.inl ⟨hc1, hv1, h⟩)
  · rw [mem_ite_nil] at h
    obtain ⟨hr1, h⟩ := h
    rw [List.mem_append] at h
    rcases h with h | h
    · rw [mem_ite_nil] at h
      obtain ⟨hvN, h⟩ := h
      rw [List.mem_singleton] at h
      exact Or.inr (Or.inr (Or.inl ⟨hr1, hvN, h⟩))
    · rw [mem_ite_nil] at h
      obtain ⟨hv1, h⟩ := h
      rw [List.mem_singleton] at h
      exact Or.inr (Or.inr (Or.inr ⟨hr1, hv1, h⟩))

end solving

theorem negCast_inj {a b : Nat} (h : -(a : Int) = -(b : Int)) : a = b := by
  have := neg_inj.1 h
  exact_mod_cast this

namespace solving

/-- Geometry of an emitted adjacency clause: its second cell is the
right or down neighbor of its first cell and the values differ by one. -/
theorem adjClauses_pair_rel {N rA cA vA rB cB vB : Nat}
    (hcA : cA < N) (hvA1 : 1 ≤ vA) (hvA2 : vA ≤ N)
    (hcB : cB < N) (hvB1 : 1 ≤ vB) (hvB2 : vB ≤ N)
    (h : [-(varN N rA cA vA : Int), -(varN N rB cB vB : Int)] ∈ adjClauses N) :
    (rB = rA ∧ cB = cA + 1 ∧ (vB = vA + 1 ∨ vB + 1 = vA)) ∨
    (cB = cA ∧ rB = rA + 1 ∧ (vB = vA + 1 ∨ vB + 1 = vA)) := by
  obtain ⟨r, c, v, hr, hc, hv1, hv2, hforms⟩ := adjClauses_elim h
  rcases hforms with ⟨hc1, hvN, he⟩ | ⟨hc1, hv1', he⟩ | ⟨hr1, hvN, he⟩ | ⟨hr1, hv1', he⟩ <;>
    rw [List.cons.injEq, List.cons.injEq] at he <;>
    obtain ⟨he1, he2, -⟩ := he
  · obtain ⟨ha1, ha2, ha3⟩ := varN_inj hcA hvA1 hvA2 hc hv1 hv2 (negCast_inj he1)
    obtain ⟨hb1, hb2, hb3⟩ := varN_inj hcB hvB1 hvB2 hc1 (by omega) (by omega)
      (negCast_inj he2)
    left; omega
  · obtain ⟨ha1, ha2, ha3⟩ := varN_inj hcA hvA1 hvA2 hc hv1 hv2 (negCast_inj he1)
    obtain ⟨hb1, hb2, hb3⟩ := varN_inj hcB hvB1 hvB2 hc1 (by omega) (by omega)
      (negCast_inj he2)
    left; omega
  · obtain ⟨ha1, ha2, ha3⟩ := varN_inj hcA hvA1 hvA2 hc hv1 hv2 (negCast_inj he1)
    obtain ⟨hb1, hb2, hb3⟩ := varN_inj hcB hvB1 hvB2 hc (by omega) (by omega)
      (negCast_inj he2)
    right; omega
  · obtain ⟨ha1, ha2, ha3⟩ := varN_inj hcA hvA1 hvA2 hc hv1 hv2 (negCast_inj he1)
    obtain ⟨hb1, hb2, hb3⟩ := varN_inj hcB hvB1 hvB2 hc (by omega) (by omega)
      (negCast_inj he2)
    right; omega

/-- Every clause in the per-cell-and-value block starts with the
literal of that cell and value. -/
theorem adjBlock_head {N r c v : Nat} {cl : List Int}
    (h : cl ∈ adjBlock N r c v) : ∃ y : Int, cl = [-(varN N r c v : Int), y] := by
  unfold adjBlock at h
  rw [List.mem_append] at h
  rcases h with h | h <;> rw [mem_ite_nil] at h <;> obtain ⟨-, h⟩ := h <;>
    rw [List.mem_append] at h <;>
    rcases h with h | h <;> rw [mem_ite_nil] at h <;> obtain ⟨-, h⟩ := h <;>
    rw [List.mem_singleton] at h <;> exact ⟨_, h⟩

/-- The block one cell and one value contribute has no duplicate
clauses. -/
theorem adjBlock_nodup {N r c v : Nat} (hc : c < N) (hv1 : 1 ≤ v) (hv2 : v ≤ N) :
    (adjBlock N r c v).Nodup := by
  have hsing : ∀ (P : Prop) [Decidable P] (x : List Int),
      (if P then [x] else []).Nodup := by
    intro P _ x; split <;> simp
  unfold adjBlock
  refine List.Nodup.append ?_ ?_ ?_
  · split
    · next hc1 =>
      refine List.Nodup.append (hsing _ _) (hsing _ _) ?_
      intro x hx hy
      rw [mem_ite_nil] at hx hy
      obtain ⟨hvN, hx⟩ := hx
      obtain ⟨hv1', hy⟩ := hy
      rw [List.mem_singleton] at hx hy
      subst hx
      rw [List.cons.injEq, List.cons.injEq] at hy
      obtain ⟨-, h2, -⟩ := hy
      obtain ⟨-, -, h3⟩ := varN_inj (by omega) (by omega) (by omega)
        (by omega) (by omega) (by omega) (negCast_inj h2)
      omega
    · simp
  · split
    · next hr1 =>
      refine List.Nodup.append (hsing _ _) (hsing _ _) ?_
      intro x hx hy
      rw [mem_ite_nil] at hx hy
      obtain ⟨hvN, hx⟩ := hx
      obtain ⟨hv1', hy⟩ := hy
      rw [List.mem_singleton] at hx hy
      subst hx
      rw [List.cons.injEq, List.cons.injEq] at hy
      obtain ⟨-, h2, -⟩ := hy
      obtain ⟨-, -, h3⟩ := varN_inj (by omega) (by omega) (by omega)
        (by omega) (by omega) (by omega) (negCast_inj h2)
      omega
    · simp
  · intro x hx hy
    rw [mem_ite_nil] at hx hy
    obtain ⟨hc1, hx⟩ := hx
    obtain ⟨hr1, hy⟩ := hy
    rw [List.mem_append] at hx hy
    have hxf : (v < N ∧ x = [-(varN N r c v : Int), -(varN N r (c + 1) (v + 1) : Int)]) ∨
        (1 < v ∧ x = [-(varN N r c v : Int), -(varN N r (c + 1) (v - 1) : Int)]) := by
      rcases hx with hx | hx <;> rw [mem_ite_nil] at hx <;>
        obtain ⟨hg, hx⟩ := hx <;> rw [List.mem_singleton] at hx
      · exact Or.inl ⟨hg, hx⟩
      · exact Or.inr ⟨hg, hx⟩
    have hyf : (v < N ∧ x = [-(varN N r c v : Int), -(varN N (r + 1) c (v + 1) : Int)]) ∨
        (1 < v ∧ x = [-(varN N r c v : Int), -(varN N (r + 1) c (v - 1) : Int)]) := by
      rcases hy with hy | hy <;> rw [mem_ite_nil] at hy <;>
        obtain ⟨hg, hy⟩ := hy <;> rw [List.mem_singleton] at hy
      · exact Or.inl ⟨hg, hy⟩
      · exact Or.inr ⟨hg, hy⟩
    rcases hxf with ⟨hg1, hx1⟩ | ⟨hg1, hx1⟩ <;> rcases hyf with ⟨hg2, hy1⟩ | ⟨hg2, hy1⟩ <;>
      rw [hx1] at hy1 <;> rw [List.cons.injEq, List.cons.injEq] at hy1 <;>
      obtain ⟨-, h2, -⟩ := hy1
    · obtain ⟨h3, h4, -⟩ := @varN_inj N r (c + 1) (v + 1) (r + 1) c (v + 1)
        hc1 (by omega) (by omega) hc (by omega) (by omega) (negCast_inj h2)
      omega
    · obtain ⟨h3, h4, -⟩ := @varN_inj N r (c + 1) (v + 1) (r + 1) c (v - 1)
        hc1 (by omega) (by omega) hc (by omega) (by omega) (negCast_inj h2)
      omega
    · obtain ⟨h3, h4, -⟩ := @varN_inj N r (c + 1) (v - 1) (r + 1) c (v + 1)
        hc1 (by omega) (by omega) hc (by omega) (by omega) (negCast_inj h2)
      omega
    · obtain ⟨h3, h4, -⟩ := @varN_inj N r (c + 1) (v - 1) (r + 1) c (v - 1)
        hc1 (by omega) (by omega) hc (by omega) (by omega) (negCast_inj h2)
      omega

end solving

namespace solving

/-- The right/down adjacency enumeration emits no duplicate clauses. -/
theorem adjClauses_nodup (N : Nat) : (adjClauses N).Nodup := by
  unfold adjClauses
  rw [List.nodup_flatMap]
  constructor
  · intro r hr
    rw [List.nodup_flatMap]
    constructor
    · intro c hc
      rw [List.nodup_flatMap]
      constructor
      · intro v hv
        have hvb := List.mem_range'_1.1 hv
        exact adjBlock_nodup (List.mem_range.1 hc) hvb.1 (by omega)
      · refine (List.nodup_range' _ _).pairwise_of_forall_ne ?_
        intro v1 h1 v2 h2 hne
        simp only [Function.onFun]
        rw [List.disjoint_left]
        intro cl hcl1 hcl2
        obtain ⟨y1, he1⟩ := adjBlock_head hcl1
        obtain ⟨y2, he2⟩ := adjBlock_head hcl2
        rw [he1, List.cons.injEq] at he2
        obtain ⟨h2', -⟩ := he2
        have hcN := List.mem_range.1 hc
        have hv1b := List.mem_range'_1.1 h1
        have hv2b := List.mem_range'_1.1 h2
        obtain ⟨-, -, h3⟩ := varN_inj hcN hv1b.1 (by omega) hcN hv2b.1 (by omega)
          (negCast_inj h2')
        exact hne h3
    · refine (List.nodup_range _).pairwise_of_forall_ne ?_
      intro c1 h1 c2 h2 hne
      simp only [Function.onFun]
      rw [List.disjoint_left]
      intro cl hcl1 hcl2
      rw [List.mem_flatMap] at hcl1 hcl2
      obtain ⟨v1, hv1, hb1⟩ := hcl1
      obtain ⟨v2, hv2, hb2⟩ := hcl2
      obtain ⟨y1, he1⟩ := adjBlock_head hb1
      obtain ⟨y2, he2⟩ := adjBlock_head hb2
      rw [he1, List.cons.injEq] at he2
      obtain ⟨h2', -⟩ := he2
      have hc1N := List.mem_range.1 h1
      have hc2N := List.mem_range.1 h2
      have hv1b := List.mem_range'_1.1 hv1
      have hv2b := List.mem_range'_1.1 hv2
      obtain ⟨-, h3, -⟩ := varN_inj hc1N hv1b.1 (by omega) hc2N hv2b.1 (by omega)
        (negCast_inj h2')
      exact hne h3
  · refine (List.nodup_range _).pairwise_of_forall_ne ?_
    intro r1 h1 r2 h2 hne
    simp only [Function.onFun]
    rw [List.disjoint_left]
    intro cl hcl1 hcl2
    rw [List.mem_flatMap] at hcl1 hcl2
    obtain ⟨c1, hc1, hcl1⟩ := hcl1
    obtain ⟨c2, hc2, hcl2⟩ := hcl2
    rw [List.mem_flatMap] at hcl1 hcl2
    obtain ⟨v1, hv1, hb1⟩ := hcl1
    obtain ⟨v2, hv2, hb2⟩ := hcl2
    obtain ⟨y1, he1⟩ := adjBlock_head hb1
    obtain ⟨y2, he2⟩ := adjBlock_head hb2
    rw [he1, List.cons.injEq] at he2
    obtain ⟨h2', -⟩ := he2
    have hc1N := List.mem_range.1 hc1
    have hc2N := List.mem_range.1 hc2
    have hv1b := List.mem_range'_1.1 hv1
    have hv2b := List.mem_range'_1.1 hv2
    obtain ⟨h3, -, -⟩ := varN_inj hc1N hv1b.1 (by omega) hc2N hv2b.1 (by omega)
      (negCast_inj h2')
    exact hne h3

end solving

/-- Counting clauses equal to one of two distinct values: in a
duplicate-free list containing the first but not the second, the count
is exactly one. -/
theorem countP_pair {α : Type} [DecidableEq α] {l : List α} {X Y : α}
    (hXY : X ≠ Y) (hnd : l.Nodup) (hX : X ∈ l) (hY : Y ∉ l) :
    l.countP (fun a => decide (a = X) || decide (a = Y)) = 1 := by
  induction l with
  | nil => simp at hX
  | cons a t ih =>
    rw [List.countP_cons]
    have hndt := (List.nodup_cons.1 hnd).2
    have hat := (List.nodup_cons.1 hnd).1
    have hYt : Y ∉ t := fun h => hY (List.mem_cons_of_mem _ h)
    rcases List.mem_cons.1 hX with heq | hXt
    · have hpa : (decide (a = X) || decide (a = Y)) = true := by
        simp [heq.symm]
      rw [hpa, if_pos rfl]
      have h0 : t.countP (fun b => decide (b = X) || decide (b = Y)) = 0 := by
        rw [List.countP_eq_zero]
        intro b hb
        simp only [Bool.or_eq_true, decide_eq_true_eq]
        rintro (rfl | rfl)
        · exact hat (heq ▸ hb)
        · exact hYt hb
      omega
    · have haX : a ≠ X := by rintro rfl; exact hat hXt
      have haY : a ≠ Y := by rintro rfl; exact hY (List.mem_cons_self _ _)
      have hpa : (decide (a = X) || decide (a = Y)) = false := by
        simp [haX, haY]
      rw [hpa, if_neg (by simp)]
      have := ih hndt hXt hYt
      omega

theorem countP_pair' {α : Type} [DecidableEq α] {l : List α} {X Y : α}
    (hXY : X ≠ Y) (hnd : l.Nodup) (hY : Y ∈ l) (hX : X ∉ l) :
    l.countP (fun a => decide (a = X) || decide (a = Y)) = 1 := by
  have h := countP_pair (X := Y) (Y := X) hXY.symm hnd hY hX
  refine Eq.trans (List.countP_congr fun x _ => ?_) h
  simp only [Bool.or_eq_true, decide_eq_true_eq]
  exact or_comm

/--
C6.  Non-consecutive adjacency family: the solving encoder emits, for
every cell and its right and down neighbors and every value v, the
clause forbidding v+1 (when v < N) and v-1 (when v > 1) at the
neighbor; the right/down enumeration has no duplicate clauses; and for
every orthogonally adjacent unordered pair of cells and every
consecutive value assignment across it, exactly one emitted binary
clause forbids that combination.
-/
theorem C6_adjacency (text : List (List Nat)) (N : Nat) (h : text.length = N) :
    (∀ r c v, r < N → c < N → 1 ≤ v → v ≤ N →
      (c + 1 < N → v < N →
        [-(varN N r c v : Int), -(varN N r (c + 1) (v + 1) : Int)] ∈
          (solving.to_cnf text).1) ∧
      (c + 1 < N → 1 < v →
        [-(varN N r c v : Int), -(varN N r (c + 1) (v - 1) : Int)] ∈
          (solving.to_cnf text).1) ∧
      (r + 1 < N → v < N →
        [-(varN N r c v : Int), -(varN N (r + 1) c (v + 1) : Int)] ∈
          (solving.to_cnf text).1) ∧
      (r + 1 < N → 1 < v →
        [-(varN N r c v : Int), -(varN N (r + 1) c (v - 1) : Int)] ∈
          (solving.to_cnf text).1)) ∧
    (solving.adjClauses N).Nodup ∧
    (∀ r c r' c' a, r < N → c < N → r' < N → c' < N → 1 ≤ a → a + 1 ≤ N →
      ((r' = r ∧ (c' = c + 1 ∨ c = c' + 1)) ∨ (c' = c ∧ (r' = r + 1 ∨ r = r' + 1))) →
      (solving.adjClauses N).countP
        (fun cl =>
          decide (cl = [-(varN N r c a : Int), -(varN N r' c' (a + 1) : Int)]) ||
          decide (cl = [-(varN N r' c' (a + 1) : Int), -(varN N r c a : Int)])) = 1) := by
  subst h
  refine ⟨?_, solving.adjClauses_nodup _, ?_⟩
  · intro r c v hr hc hv1 hv2
    have hsub : ∀ cl : List Int, cl ∈ solving.adjClauses text.length →
        cl ∈ (solving.to_cnf text).1 := by
      intro cl hcl
      unfold solving.to_cnf
      simp only [List.mem_append]
      tauto
    exact ⟨fun h1 h2 => hsub _ (solving.adjF1_mem hr hc hv1 hv2 h1 h2),
           fun h1 h2 => hsub _ (solving.adjF2_mem hr hc hv1 hv2 h1 h2),
           fun h1 h2 => hsub _ (solving.adjF3_mem hr hc hv1 hv2 h1 h2),
           fun h1 h2 => hsub _ (solving.adjF4_mem hr hc hv1 hv2 h1 h2)⟩
  · intro r c r' c' a hr hc hr' hc' ha1 ha2 hgeo
    rcases hgeo with ⟨heqr, hcc | hcc⟩ | ⟨heqc, hrr | hrr⟩
    · -- the second cell is the right neighbor: form 1 is emitted
      rw [heqr, hcc]
      rw [hcc] at hc'
      have hX : [-(varN text.length r c a : Int),
          -(varN text.length r (c + 1) (a + 1) : Int)] ∈
          solving.adjClauses text.length :=
        solving.adjF1_mem hr hc ha1 (by omega) hc' (by omega)
      have hY : [-(varN text.length r (c + 1) (a + 1) : Int),
          -(varN text.length r c a : Int)] ∉
          solving.adjClauses text.length := by
        intro hmem
        have := solving.adjClauses_pair_rel hc' (by omega) (by omega)
          hc ha1 (by omega) hmem
        rcases this with ⟨h1, h2, h3⟩ | ⟨h1, h2, h3⟩ <;> omega
      have hXY : [-(varN text.length r c a : Int),
          -(varN text.length r (c + 1) (a + 1) : Int)] ≠
          [-(varN text.length r (c + 1) (a + 1) : Int),
           -(varN text.length r c a : Int)] := by
        intro he
        rw [List.cons.injEq] at he
        obtain ⟨he1, -⟩ := he
        obtain ⟨-, -, h3⟩ := varN_inj hc ha1 (by omega) hc' (by omega) (by omega)
          (negCast_inj he1)
        omega
      exact countP_pair hXY (solving.adjClauses_nodup _) hX hY
    · -- the second cell is the left neighbor: form 2 at the neighbor
      rw [heqr, hcc]
      rw [hcc] at hc
      have hY : [-(varN text.length r c' (a + 1) : Int),
          -(varN text.length r (c' + 1) a : Int)] ∈
          solving.adjClauses text.length := by
        have := solving.adjF2_mem (v := a + 1) hr hc' (by omega) ha2 hc (by omega)
        simpa using this
      have hX : [-(varN text.length r (c' + 1) a : Int),
          -(varN text.length r c' (a + 1) : Int)] ∉
          solving.adjClauses text.length := by
        intro hmem
        have := solving.adjClauses_pair_rel hc (by omega) (by omega)
          hc' (by omega) ha2 hmem
        rcases this with ⟨h1, h2, h3⟩ | ⟨h1, h2, h3⟩ <;> omega
      have hXY : [-(varN text.length r (c' + 1) a : Int),
          -(varN text.length r c' (a + 1) : Int)] ≠
          [-(varN text.length r c' (a + 1) : Int),
           -(varN text.length r (c' + 1) a : Int)] := by
        intro he
        rw [List.cons.injEq] at he
        obtain ⟨he1, -⟩ := he
        obtain ⟨-, -, h3⟩ := varN_inj hc (by omega) (by omega) hc' (by omega) (by omega)
          (negCast_inj he1)
        omega
      exact countP_pair' hXY (solving.adjClauses_nodup _) hY hX
    · -- the second cell is the down neighbor: form 3 is emitted
      rw [heqc, hrr]
      rw [hrr] at hr'
      have hX : [-(varN text.length r c a : Int),
          -(varN text.length (r + 1) c (a + 1) : Int)] ∈
          solving.adjClauses text.length :=
        solving.adjF3_mem hr hc ha1 (by omega) hr' (by omega)
      have hY : [-(varN text.length (r + 1) c (a + 1) : Int),
          -(varN text.length r c a : Int)] ∉
          solving.adjClauses text.length := by
        intro hmem
        have := solving.adjClauses_pair_rel hc (by omega) (by omega)
          hc ha1 (by omega) hmem
        rcases this with ⟨h1, h2, h3⟩ | ⟨h1, h2, h3⟩ <;> omega
      have hXY : [-(varN text.length r c a : Int),
          -(varN text.length (r + 1) c (a + 1) : Int)] ≠
          [-(varN text.length (r + 1) c (a + 1) : Int),
           -(varN text.length r c a : Int)] := by
        intro he
        rw [List.cons.injEq] at he
        obtain ⟨he1, -⟩ := he
        obtain ⟨-, -, h3⟩ := varN_inj hc ha1 (by omega) hc (by omega) (by omega)
          (negCast_inj he1)
        omega
      exact countP_pair hXY (solving.adjClauses_nodup _) hX hY
    · -- the second cell is the up neighbor: form 4 at the neighbor
      rw [heqc, hrr]
      rw [hrr] at hr
      have hY : [-(varN text.length r' c (a + 1) : Int),
          -(varN text.length (r' + 1) c a : Int)] ∈
          solving.adjClauses text.length := by
        have := solving.adjF4_mem (v := a + 1) hr' hc (by omega) ha2 hr (by omega)
        simpa using this
      have hX : [-(varN text.length (r' + 1) c a : Int),
          -(varN text.length r' c (a + 1) : Int)] ∉
          solving.adjClauses text.length := by
        intro hmem
        have := solving.adjClauses_pair_rel hc (by omega) (by omega)
          hc (by omega) ha2 hmem
        rcases this with ⟨h1, h2, h3⟩ | ⟨h1, h2, h3⟩ <;> omega
      have hXY : [-(varN text.length (r' + 1) c a : Int),
          -(varN text.length r' c (a + 1) : Int)] ≠
          [-(varN text.length r' c (a + 1) : Int),
           -(varN text.length (r' + 1) c a : Int)] := by
        intro he
        rw [List.cons.injEq] at he
        obtain ⟨he1, -⟩ := he
        obtain ⟨-, -, h3⟩ := varN_inj hc (by omega) (by omega) hc (by omega) (by omega)
          (negCast_inj he1)
        omega
      exact countP_pair' hXY (solving.adjClauses_nodup _) hY hX

/-- C6 witness: the adjacency family properties at the concrete blank
2 by 2 grid. -/
theorem C6_witness :
    ([[(0 : Nat), 0], [0, 0]] : List (List Nat)).length = 2 ∧
    ((∀ r c v, r < 2 → c < 2 → 1 ≤ v → v ≤ 2 →
      (c + 1 < 2 → v < 2 →
        [-(varN 2 r c v : Int), -(varN 2 r (c + 1) (v + 1) : Int)] ∈
          (solving.to_cnf [[0, 0], [0, 0]]).1) ∧
      (c + 1 < 2 → 1 < v →
        [-(varN 2 r c v : Int), -(varN 2 r (c + 1) (v - 1) : Int)] ∈
          (solving.to_cnf [[0, 0], [0, 0]]).1) ∧
      (r + 1 < 2 → v < 2 →
        [-(varN 2 r c v : Int), -(varN 2 (r + 1) c (v + 1) : Int)] ∈
          (solving.to_cnf [[0, 0], [0, 0]]).1) ∧
      (r + 1 < 2 → 1 < v →
        [-(varN 2 r c v : Int), -(varN 2 (r + 1) c (v - 1) : Int)] ∈
          (solving.to_cnf [[0, 0], [0, 0]]).1)) ∧
    (solving.adjClauses 2).Nodup ∧
    (∀ r c r' c' a, r < 2 → c < 2 → r' < 2 → c' < 2 → 1 ≤ a → a + 1 ≤ 2 →
      ((r' = r ∧ (c' = c + 1 ∨ c = c' + 1)) ∨ (c' = c ∧ (r' = r + 1 ∨ r = r' + 1))) →
      (solving.adjClauses 2).countP
        (fun cl =>
          decide (cl = [-(varN 2 r c a : Int), -(varN 2 r' c' (a + 1) : Int)]) ||
          decide (cl = [-(varN 2 r' c' (a + 1) : Int), -(varN 2 r c a : Int)])) = 1)) :=
  ⟨rfl, C6_adjacency [[0, 0], [0, 0]] 2 rfl⟩

theorem boxCells_eq (N B rb cb v : Nat) :
    CODE.boxCells N B rb cb v = solving.boxCells N B rb cb v := by
  unfold CODE.boxCells solving.boxCells
  congr 1
  funext i
  congr 1
  funext j
  rw [Nat.add_comm i rb, Nat.add_comm j cb]

theorem boxClauses_eq (N B : Nat) :
    CODE.boxClauses N B = solving.boxClauses N B := by
  unfold CODE.boxClauses solving.boxClauses
  congr 1
  funext rb
  congr 1
  funext cb
  congr 1
  funext v
  rw [boxCells_eq]

/-- The two adjacency enumerations differ only in emitting the down
pair before the right pair per cell and value: each per-cell block is a
permutation of the other. -/
theorem adjBlock_perm (N r c v : Nat) :
    (CODE.adjBlock N r c v).Perm (solving.adjBlock N r c v) := by
  unfold CODE.adjBlock solving.adjBlock
  have hgv : (if 1 ≤ v - 1 then
        [[-(varN N r c v : Int), -(varN N (r + 1) c (v - 1) : Int)]] else []) =
      (if 1 < v then
        [[-(varN N r c v : Int), -(varN N (r + 1) c (v - 1) : Int)]] else []) :=
    if_congr (by omega) rfl rfl
  have hgv2 : (if 1 ≤ v - 1 then
        [[-(varN N r c v : Int), -(varN N r (c + 1) (v - 1) : Int)]] else []) =
      (if 1 < v then
        [[-(varN N r c v : Int), -(varN N r (c + 1) (v - 1) : Int)]] else []) :=
    if_congr (by omega) rfl rfl
  have hlt : (if v + 1 ≤ N then
        [[-(varN N r c v : Int), -(varN N (r + 1) c (v + 1) : Int)]] else []) =
      (if v < N then
        [[-(varN N r c v : Int), -(varN N (r + 1) c (v + 1) : Int)]] else []) :=
    if_congr (by omega) rfl rfl
  have hlt2 : (if v + 1 ≤ N then
        [[-(varN N r c v : Int), -(varN N r (c + 1) (v + 1) : Int)]] else []) =
      (if v < N then
        [[-(varN N r c v : Int), -(varN N r (c + 1) (v + 1) : Int)]] else []) :=
    if_congr (by omega) rfl rfl
  rw [hgv, hgv2, hlt, hlt2]
  exact List.perm_append_comm

theorem adjClauses_perm (N : Nat) :
    (CODE.adjClauses N).Perm (solving.adjClauses N) := by
  unfold CODE.adjClauses solving.adjClauses
  refine List.Perm.flatMap_left _ (fun r _ => ?_)
  refine List.Perm.flatMap_left _ (fun c _ => ?_)
  refine List.Perm.flatMap_left _ (fun v _ => ?_)
  exact adjBlock_perm N r c v

set_option maxRecDepth 4000 in
/--
C9.  Equivalence of the two near-duplicate encoders on 9-row puzzles:
to_cnf of src/CODE/encoder.py and to_cnf of src/solving/encoder.py
return the same num_vars and clause collections that are permutations
of each other, hence equal as sets of clauses - the differing
per-cell adjacency emission order (down/right versus right/down) does
not change the emitted clause set, and the hardcoded range(1,10) cell
clause of the CODE encoder coincides with values 1..N exactly at N = 9.
-/
theorem C9_encoders_equivalent (text : List (List Nat)) (h : text.length = 9) :
    (CODE.to_cnf text).2 = (solving.to_cnf text).2 ∧
    (CODE.to_cnf text).1.Perm (solving.to_cnf text).1 ∧
    (∀ cl, cl ∈ (CODE.to_cnf text).1 ↔ cl ∈ (solving.to_cnf text).1) := by
  have hperm : (CODE.to_cnf text).1.Perm (solving.to_cnf text).1 := by
    unfold CODE.to_cnf solving.to_cnf
    simp only []
    rw [h]
    have hcell : (CODE.cellClauses 9).Perm (solving.cellClauses 9) := by
      have he : CODE.cellClauses 9 = solving.cellClauses 9 := by
        unfold CODE.cellClauses solving.cellClauses
        rfl
      rw [he]
    have hrow : (CODE.rowClauses 9).Perm (solving.rowClauses 9) := by
      have he : CODE.rowClauses 9 = solving.rowClauses 9 := by
        unfold CODE.rowClauses solving.rowClauses
        rfl
      rw [he]
    have hcol : (CODE.colClauses 9).Perm (solving.colClauses 9) := by
      have he : CODE.colClauses 9 = solving.colClauses 9 := by
        unfold CODE.colClauses solving.colClauses
        rfl
      rw [he]
    have hbox : (CODE.boxClauses 9 (isqrt 9)).Perm (solving.boxClauses 9 (isqrt 9)) := by
      rw [boxClauses_eq]
    have hclue : (CODE.clueClauses 9 text).Perm (solving.clueClauses 9 text) := by
      have he : CODE.clueClauses 9 text = solving.clueClauses 9 text := by
        unfold CODE.clueClauses solving.clueClauses
        rfl
      rw [he]
    exact ((((hcell.append hrow).append hcol).append hbox).append
      (adjClauses_perm 9)).append hclue
  exact ⟨rfl, hperm, fun cl => hperm.mem_iff⟩

/-- C9 witness: the equivalence at a concrete blank 9 by 9 grid. -/
theorem C9_witness :
    (List.replicate 9 (List.replicate 9 (0 : Nat))).length = 9 ∧
    ((CODE.to_cnf (List.replicate 9 (List.replicate 9 0))).2 =
      (solving.to_cnf (List.replicate 9 (List.replicate 9 0))).2 ∧
    (CODE.to_cnf (List.replicate 9 (List.replicate 9 0))).1.Perm
      (solving.to_cnf (List.replicate 9 (List.replicate 9 0))).1 ∧
    (∀ cl, cl ∈ (CODE.to_cnf (List.replicate 9 (List.replicate 9 0))).1 ↔
      cl ∈ (solving.to_cnf (List.replicate 9 (List.replicate 9 0))).1)) :=
  ⟨rfl, C9_encoders_equivalent (List.replicate 9 (List.replicate 9 0)) rfl⟩
